import Mathlib

/-!
# copyko: dependency resolution of kernel modules

A shallow embedding of `copyko.cpp` and a verification of its resolution engine:
the module index (`find_all_ko_files`), the metadata reader (`read_ko`, `split_sv`),
the memoised depth-first resolver (`process_module`), the attribution pass
(`mark_dep`, `mark_dep_req`) and the report (`show_autoinstalled`), together with the
command line (`parse_args`) and the copy step (`my_copy_file`, `copy_modules`).

Global variables of the program become fields of `State` (mutable ones) and of `Env`
(the ones fixed before resolution starts).  Text written to `cerr` and `cout` is kept
as a list of events, one constructor per message of the source.
-/

namespace Copyko

/-! ## Strings and ordered containers -/

/-- Lexicographic comparison of character sequences by code point, the order that
`std::string::operator<` induces on UTF-8 text. -/
def lt_chars : List Char → List Char → Bool
  | [], [] => false
  | [], _ :: _ => true
  | _ :: _, [] => false
  | a :: as, b :: bs =>
    if a.toNat < b.toNat then true
    else if b.toNat < a.toNat then false
    else lt_chars as bs

/-- The order of `std::less<std::string>`, used by `std::map` and `std::set`. -/
def string_lt (a b : String) : Bool := lt_chars a.data b.data

/-- The operation `std::set<string>::insert` (also `emplace`): the elements are kept in
ascending order and an element that is already present is not added again. -/
def set_insert : List String → String → List String
  | [], x => [x]
  | y :: ys, x =>
    if string_lt x y then x :: y :: ys
    else if x = y then y :: ys
    else y :: set_insert ys x

/-- The operation `std::map<string, V>::find`: the value stored under a key, if any. -/
def map_find {β : Type} : List (String × β) → String → Option β
  | [], _ => none
  | (k, v) :: rest, key => if key = k then some v else map_find rest key

/-- Store `v` under `key` in a `std::map<string, V>`: a new node is placed in key order,
the value of an existing node is overwritten in place. -/
def map_put {β : Type} : List (String × β) → String → β → List (String × β)
  | [], key, v => [(key, v)]
  | (k, w) :: rest, key, v =>
    if string_lt key k then (key, v) :: (k, w) :: rest
    else if key = k then (k, v) :: rest
    else (k, w) :: map_put rest key v

/-- The keys of a `std::map`, in iteration order. -/
def map_keys {β : Type} (m : List (String × β)) : List String := m.map Prod.fst

/-! ## Data model -/

/-- The record `struct Ko_info`.  The defaults are the value-initialised record that
`try_emplace(name)` and `operator[]` create: empty containers, null `path`, `su` false.
The pointer `path` is modelled by the string it points to (`none` is the null pointer). -/
structure Ko_info where
  deps : List String := []
  pulled_by : List String := []
  path : Option String := none
  su : Bool := false
deriving DecidableEq, Repr

/-- Messages written to `cerr`. -/
inductive Diag where
  /-- The line `<name> not found` of `process_module`. -/
  | not_found (name : String)
  /-- The line `Dependency tree is too deep` of `mark_dep_req`. -/
  | too_deep
  /-- The line `There are more than one module with same name <basename>` of
  `find_all_ko_files`. -/
  | same_name (basename : String)
deriving DecidableEq, Repr

/-- Messages written to `cout` by `show_autoinstalled`. -/
inductive Report where
  /-- The line `Module <mn> is dependency for <s> <s> ...`, with the `pulled_by` set. -/
  | dependency_for (mn : String) (pulled_by : List String)
  /-- The closing line `You can omit dependency modules because ...`. -/
  | can_omit
deriving DecidableEq, Repr

/-- Ways in which the run stops before `main` returns. -/
inductive Abort where
  /-- The call `assert(depends_found)` of `read_ko` failed. -/
  | assert_depends_found
  /-- The recursion budget of the embedding ran out (never happens with the budget
  that `resolve` supplies, see `process_module_enough_fuel`). -/
  | out_of_fuel
deriving DecidableEq, Repr

/-- What is fixed while modules are resolved: the source directory, the index `all_ko`
(name to relative path) and the external tool: `modinfo p` is the text that
`modinfo <p>` writes to its standard output. -/
structure Env where
  srcdir : String
  all_ko : List (String × String)
  modinfo : String → String

/-- The mutable globals `ko_list` and `firmware`, the text sent to `cerr`, and a log of
the arguments with which `read_ko` was called, in call order. -/
structure State where
  ko_list : List (String × Ko_info) := []
  firmware : List String := []
  cerr : List Diag := []
  read_ko_calls : List String := []

/-! ## `split_sv` and `read_ko` -/

/-- The loop of `split_sv`, run on the part of `strv` that starts at `first`.
`takeWhile` finds the position `second` of the next comma, `first != second` says the
piece before it is non-empty, and an exhausted `dropWhile` is `second == npos`. -/
def split_sv_loop : Nat → List Char → List String
  | 0, _ => []
  | fuel + 1, s =>
    if s = [] then []
    else
      let piece := s.takeWhile (fun c => c != ',')
      let out := if piece = [] then [] else [String.mk piece]
      match s.dropWhile (fun c => c != ',') with
      | [] => out
      | _ :: rest => out ++ split_sv_loop fuel rest

/-- The function `split_sv`: split at `','`, skipping empty pieces.  Each round of the
loop consumes at least one character, so `size + 1` rounds are enough. -/
def split_sv (strv : String) : List String :=
  split_sv_loop (strv.data.length + 1) strv.data

/-- The whitespace of the classic locale, which `operator>>` skips and stops at. -/
def isspace (c : Char) : Bool :=
  c = ' ' || c = '\t' || c = '\n' || c = '\x0b' || c = '\x0c' || c = '\r'

/-- One extraction `is >> word`: skip whitespace, then read up to the next whitespace.
Returns the word and the rest of the stream; the word is empty when nothing is left. -/
def read_word (s : List Char) : String × List Char :=
  let t := s.dropWhile isspace
  (String.mk (t.takeWhile (fun c => !isspace c)), t.dropWhile (fun c => !isspace c))

/-- The lines that successive `getline(is, line)` calls deliver: a line ends at `'\n'`
or at the end of the stream, and `getline` fails once nothing is left. -/
def getlines_loop : Nat → List Char → List (List Char)
  | 0, _ => []
  | fuel + 1, s =>
    if s = [] then []
    else
      s.takeWhile (fun c => c != '\n') ::
        match s.dropWhile (fun c => c != '\n') with
        | [] => []
        | _ :: rest => getlines_loop fuel rest

/-- All lines of a text, as read by the `while (getline(is, line))` loop. -/
def getlines (text : String) : List (List Char) :=
  getlines_loop (text.data.length + 1) text.data

/-- The local variables of `read_ko` that its loop updates, and the global `firmware`. -/
structure ReadAcc where
  res : List String
  firmware : List String
  depends_found : Bool

/-- The body of the `while (getline(is, line))` loop of `read_ko`. -/
def read_ko_line (acc : ReadAcc) (line : List Char) : ReadAcc :=
  let lh := (read_word line).1
  let lv := (read_word (read_word line).2).1
  if lh = "depends:" then
    { acc with res := acc.res ++ split_sv lv, depends_found := true }
  else if lh = "firmware:" then
    { acc with firmware := (split_sv lv).foldl set_insert acc.firmware }
  else acc

/-- The state of `read_ko` after its loop has consumed the whole output of the tool. -/
def read_ko_scan (text : String) (firmware : List String) : ReadAcc :=
  (getlines text).foldl read_ko_line ⟨[], firmware, false⟩

/-- The function `read_ko`: run `modinfo` on `module`, collect the `depends:` names,
add the `firmware:` names to the global set, and check `assert(depends_found)`.
Returns the dependencies and the new firmware set. -/
def read_ko (modinfo : String → String) (module : String) (firmware : List String) :
    Except Abort (List String × List String) :=
  let acc := read_ko_scan (modinfo module) firmware
  if acc.depends_found then .ok (acc.res, acc.firmware)
  else .error .assert_depends_found

/-! ## `process_module` -/

/-- The expression `srcdir / rel` of `std::filesystem` on POSIX: an absolute right-hand
side replaces the left one, otherwise a separator is added unless the left side is
empty or already ends in one. -/
def path_append (dir rel : String) : String :=
  match rel.data with
  | '/' :: _ => rel
  | _ =>
    if dir.data = [] then rel
    else if dir.data.getLast? = some '/' then dir ++ rel
    else dir ++ "/" ++ rel

/-- The function `process_module`.  The first argument bounds the depth of the
recursion; `name` is looked up in `all_ko`, entered into `ko_list` unless it is there
already, its `path` and `deps` are filled in, and every dependency is processed.
The source enters a value-initialised record with `try_emplace` and fills it in after
`read_ko` has returned; `read_ko` does not look at `ko_list`, so the embedding stores
the filled record in one step.  The loop runs over `ki.deps`, which no nested call
changes, because `name` is now a key. -/
def process_module (env : Env) : Nat → String → State → Except Abort State
  | 0, _, _ => .error .out_of_fuel
  | fuel + 1, name, st =>
    match map_find env.all_ko name with
    | none => .ok { st with cerr := st.cerr ++ [Diag.not_found name] }
    | some pth =>
      match map_find st.ko_list name with
      | some _ => .ok st
      | none =>
        let module := path_append env.srcdir pth
        match read_ko env.modinfo module st.firmware with
        | .error e => .error e
        | .ok (deps, fw) =>
          let ki : Ko_info := { path := some pth, deps := deps }
          let st1 : State :=
            { st with
              ko_list := map_put st.ko_list name ki
              firmware := fw
              read_ko_calls := st.read_ko_calls ++ [module] }
          deps.foldlM (fun s fn => process_module env fuel fn s) st1

/-- The loop `for (const string& f: ko_files) process_module(f);` of `main`, started
from the empty `ko_list` and `firmware`.  No chain of nested calls is longer than the
index plus one, which is the budget given to each call. -/
def resolve (env : Env) (ko_files : List String) : Except Abort State :=
  ko_files.foldlM (fun s f => process_module env (env.all_ko.length + 1) f s) {}

/-! ## Attribution pass -/

/-- The entry that `ko_list[module]` refers to: the stored one, or a value-initialised
one that `operator[]` inserts. -/
def map_index (m : List (String × Ko_info)) (module : String) : Ko_info :=
  (map_find m module).getD {}

/-- The function `mark_dep_req`, with a budget for the depth of the recursion in front.
The dependencies of an entry are never changed by this pass, so the loop runs over the
list read when the entry is reached. -/
def mark_dep_req_fuel :
    Nat → String → String → Nat → State → State
  | fuel, module, user_module, rec_lev, st =>
    if rec_lev > 1024 then { st with cerr := st.cerr ++ [Diag.too_deep] }
    else
      match fuel with
      | 0 => st
      | fuel + 1 =>
        let ki := map_index st.ko_list module
        let ki1 : Ko_info := { ki with pulled_by := set_insert ki.pulled_by user_module }
        let st1 : State := { st with ko_list := map_put st.ko_list module ki1 }
        ki1.deps.foldl
          (fun s n => mark_dep_req_fuel fuel n user_module (rec_lev + 1) s) st1

/-- The function `mark_dep_req`.  The guard `rec_lev > 1024` ends every chain of nested
calls after at most `1026 - rec_lev` of them, which is the budget used (see
`mark_dep_req_unfold`). -/
def mark_dep_req (module user_module : String) (rec_lev : Nat) (st : State) : State :=
  mark_dep_req_fuel (1026 - rec_lev) module user_module rec_lev st

/-- The function `mark_dep`. -/
def mark_dep (module : String) (st : State) : State :=
  let ki := map_index st.ko_list module
  let ki1 : Ko_info := { ki with su := true }
  let st1 : State := { st with ko_list := map_put st.ko_list module ki1 }
  ki1.deps.foldl (fun s n => mark_dep_req n module 0 s) st1

/-- The loop `for (const string& f: ko_files) mark_dep(f);` of `main`. -/
def mark_all (ko_files : List String) (st : State) : State :=
  ko_files.foldl (fun s f => mark_dep f s) st

/-- The function `show_autoinstalled`: the lines written to `cout`. -/
def show_autoinstalled (ko_list : List (String × Ko_info)) : List Report :=
  let r := ko_list.foldl
    (fun (acc : List Report × Bool) (e : String × Ko_info) =>
      if e.2.su && !e.2.pulled_by.isEmpty then
        (acc.1 ++ [Report.dependency_for e.1 e.2.pulled_by], true)
      else acc)
    ([], false)
  if r.2 then r.1 ++ [Report.can_omit] else r.1

/-! ## `find_all_ko_files` -/

/-- One entry delivered by `fs::recursive_directory_iterator`: whether it is a regular
file, its path `it.path()`, and the value of `fs::relative(pth, srcdir)` for it. -/
structure DirEntry where
  is_regular_file : Bool
  path : String
  relative : String

/-- The last component of a path (`fs::path::filename`). -/
def filename (p : List Char) : List Char :=
  (p.reverse.takeWhile (fun c => c != '/')).reverse

/-- Split a file name at its last dot, as `fs::path::stem` and `fs::path::extension`
do: the names `.` and `..` and names whose only dot is the first character have no
extension. -/
def stem_ext (f : List Char) : List Char × List Char :=
  if f = ['.'] || f = ['.', '.'] then (f, [])
  else
    match f.reverse.dropWhile (fun c => c != '.') with
    | [] => (f, [])
    | _ :: pre =>
      if pre = [] then (f, [])
      else (pre.reverse, '.' :: (f.reverse.takeWhile (fun c => c != '.')).reverse)

/-- The member `fs::path::stem` as a string. -/
def path_stem (p : String) : String := String.mk (stem_ext (filename p.data)).1

/-- The member `fs::path::extension` as a string. -/
def path_extension (p : String) : String := String.mk (stem_ext (filename p.data)).2

/-- The body of the loop of `find_all_ko_files`: `insert_or_assign` stores the relative
path under the stem, and reports whether a new node was made. -/
def find_all_ko_step (acc : List (String × String) × List Diag) (it : DirEntry) :
    List (String × String) × List Diag :=
  if !it.is_regular_file then acc
  else if path_extension it.path != ".ko" then acc
  else
    let basename := path_stem it.path
    let inserted := (map_find acc.1 basename).isNone
    (map_put acc.1 basename it.relative,
      if inserted then acc.2 else acc.2 ++ [Diag.same_name basename])

/-- The function `find_all_ko_files` on the entries met by the directory iterator:
the index and the diagnostics written to `cerr`. -/
def find_all_ko_files (entries : List DirEntry) : List (String × String) × List Diag :=
  entries.foldl find_all_ko_step ([], [])

/-! ## Specification vocabulary -/

/-- The dependency names that `read_ko` returns for the file `module`. -/
def declared_deps (env : Env) (module : String) : List String :=
  (read_ko_scan (env.modinfo module) []).res

/-- The firmware names that `read_ko` adds to the firmware set for the file `module`. -/
def declared_firmware (env : Env) (module : String) : List String :=
  (read_ko_scan (env.modinfo module) []).firmware

/-- The value of the flag `depends_found` at the end of `read_ko` for the file `module`. -/
def depends_found (env : Env) (module : String) : Bool :=
  (read_ko_scan (env.modinfo module) []).depends_found

/-- The argument that `process_module` passes to `read_ko` for the module `name`:
`srcdir / pth->second`, where `pth` is the index entry of `name`. -/
def module_file (env : Env) (name : String) : String :=
  path_append env.srcdir ((map_find env.all_ko name).getD "")

/-- A dependency edge: `a` is in the index and the tool lists `d` among the
dependencies of the file of `a`. -/
def Dep (env : Env) (a d : String) : Prop :=
  ∃ pth, map_find env.all_ko a = some pth ∧
    d ∈ declared_deps env (path_append env.srcdir pth)

/-- Reachability by zero or more dependency edges. -/
def Reach (env : Env) : String → String → Prop := Relation.ReflTransGen (Dep env)

/-- What holds of the state whenever `process_module` is entered or left: each entry of
`ko_list` is the record of an indexed module whose metadata passed the assertion, the
firmware set is the union of the firmware of the entered modules, and the calls of
`read_ko` are one per entry. -/
structure Inv (env : Env) (st : State) : Prop where
  entry : ∀ k ki, map_find st.ko_list k = some ki →
    ∃ pth, map_find env.all_ko k = some pth ∧
      ki = { path := some pth, deps := declared_deps env (path_append env.srcdir pth) } ∧
      depends_found env (path_append env.srcdir pth) = true
  fw : ∀ x, x ∈ st.firmware ↔
    ∃ k ki pth, map_find st.ko_list k = some ki ∧ ki.path = some pth ∧
      x ∈ declared_firmware env (path_append env.srcdir pth)
  calls : st.read_ko_calls.Perm ((map_keys st.ko_list).map (module_file env))
  nodup : (map_keys st.ko_list).Nodup

/-- The entry `k` of `ko_list` is closed: each of its dependencies is a key of `ko_list`,
or is absent from the index and was reported on `cerr`. -/
def Closed (env : Env) (st : State) (k : String) : Prop :=
  ∀ ki, map_find st.ko_list k = some ki → ∀ d ∈ ki.deps,
    (∃ kd, map_find st.ko_list d = some kd) ∨
      (map_find env.all_ko d = none ∧ Diag.not_found d ∈ st.cerr)

/-- The state `st2` keeps every entry of `ko_list` and every diagnostic of `st1`. -/
structure Extends (st1 st2 : State) : Prop where
  keep : ∀ k ki, map_find st1.ko_list k = some ki → map_find st2.ko_list k = some ki
  cerr : ∀ d, d ∈ st1.cerr → d ∈ st2.cerr

/-- The effect of processing the modules `names` one after the other, from `st1` to
`st2`: each name is now an entry or was reported as not found, and each entry that is
new is reachable from one of the names and closed. -/
structure Processed (env : Env) (names : List String) (st1 st2 : State) : Prop where
  inv : Inv env st2
  ext : Extends st1 st2
  done : ∀ n ∈ names, (∃ ki, map_find st2.ko_list n = some ki) ∨
    (map_find env.all_ko n = none ∧ Diag.not_found n ∈ st2.cerr)
  fresh : ∀ k ki, map_find st2.ko_list k = some ki → map_find st1.ko_list k = none →
    (∃ n ∈ names, Reach env n k) ∧ Closed env st2 k

/-- Some module reachable from `n` is indexed but the output of the tool for its file
has no `depends:` line, so that `read_ko` stops the program there. -/
def Malformed (env : Env) (n : String) : Prop :=
  ∃ m pth, Reach env n m ∧ map_find env.all_ko m = some pth ∧
    depends_found env (path_append env.srcdir pth) = false

/-- The number of index entries whose name is not yet a key of `ko_list`. -/
def unvisited (env : Env) (st : State) : Nat :=
  env.all_ko.countP (fun e => (map_find st.ko_list e.1).isNone)

/-- Two states with the same `ko_list`, firmware set and `read_ko` calls; the text on
`cerr` may differ. -/
def SameCore (s t : State) : Prop :=
  s.ko_list = t.ko_list ∧ s.firmware = t.firmware ∧ s.read_ko_calls = t.read_ko_calls

/-- Two runs end alike: both stop for the same reason, or both return and the states
have the same core. -/
def SameOutcome : Except Abort State → Except Abort State → Prop
  | .ok s, .ok t => SameCore s t
  | .error e1, .error e2 => e1 = e2
  | _, _ => False

/-- Whether a name is a key of the index. -/
def indexed (env : Env) (name : String) : Bool := (map_find env.all_ko name).isSome

/-- A dependency edge of the resolved data: `d` is in the `deps` list of the entry of
`a` in `ko_list` (an absent entry has no dependencies). -/
def ko_dep (ko_list : List (String × Ko_info)) (a d : String) : Prop :=
  d ∈ (map_index ko_list a).deps

/-- The module `b` is reached from `a` by a path of exactly `n` edges of `ko_dep`. -/
def reach_in (ko_list : List (String × Ko_info)) : Nat → String → String → Prop
  | 0, a, b => a = b
  | n + 1, a, b => ∃ c, ko_dep ko_list a c ∧ reach_in ko_list n c b

instance ko_dep_decidable (ko_list : List (String × Ko_info)) (a d : String) :
    Decidable (ko_dep ko_list a d) :=
  inferInstanceAs (Decidable (d ∈ (map_index ko_list a).deps))

instance reach_in_decidable (ko_list : List (String × Ko_info)) :
    ∀ (n : Nat) (a b : String), Decidable (reach_in ko_list n a b)
  | 0, a, b => inferInstanceAs (Decidable (a = b))
  | n + 1, a, b =>
    have : ∀ c, Decidable (reach_in ko_list n c b) := fun c => reach_in_decidable ko_list n c b
    inferInstanceAs (Decidable (∃ c, c ∈ (map_index ko_list a).deps ∧ reach_in ko_list n c b))

/-- The change from `st1` to `st2` made by the attribution pass: `pulled x k` says that
`x` was added to the `pulled_by` set of `k`, `user k` that `su` was set for `k`.
Entries are created for the modules touched; nothing else changes but `cerr`. -/
structure Marks (pulled : String → String → Prop) (user : String → Prop)
    (st1 st2 : State) : Prop where
  deps : ∀ k, (map_index st2.ko_list k).deps = (map_index st1.ko_list k).deps
  path : ∀ k, (map_index st2.ko_list k).path = (map_index st1.ko_list k).path
  su : ∀ k, (map_index st2.ko_list k).su = true ↔ (map_index st1.ko_list k).su = true ∨ user k
  pulled_by : ∀ k x, x ∈ (map_index st2.ko_list k).pulled_by ↔
    x ∈ (map_index st1.ko_list k).pulled_by ∨ pulled x k
  keys : ∀ k, (∃ ki, map_find st2.ko_list k = some ki) ↔
    (∃ ki, map_find st1.ko_list k = some ki) ∨ user k ∨ ∃ x, pulled x k
  firmware : st2.firmware = st1.firmware
  calls : st2.read_ko_calls = st1.read_ko_calls
  cerr : ∀ d, d ∈ st1.cerr → d ∈ st2.cerr

/-- A character that a module name may hold: neither white space nor a comma. -/
def name_char (c : Char) : Bool := !isspace c && c != ','

/-- Whether the loop of `find_all_ko_files` takes an entry: a regular file with the
extension `.ko`. -/
def is_ko (it : DirEntry) : Bool := it.is_regular_file && path_extension it.path == ".ko"

/-- The relative path of the first module file of the scan whose stem is `stem`. -/
def first_met (entries : List DirEntry) (stem : String) : Option String :=
  (entries.find? (fun it => is_ko it && path_stem it.path == stem)).map (fun it => it.relative)

/-- The relative path of the last module file of the scan whose stem is `stem`. -/
def last_met : List DirEntry → String → Option String
  | [], _ => none
  | it :: rest, stem =>
    match last_met rest stem with
    | some r => some r
    | none => if is_ko it && path_stem it.path == stem then some it.relative else none

/-- One `same_name` diagnostic for each module file of the scan whose stem was met in
an earlier module file; `seen` holds the stems met before the scan of `entries`. -/
def repeats_from : List String → List DirEntry → List Diag
  | _, [] => []
  | seen, it :: rest =>
    if is_ko it then
      (if path_stem it.path ∈ seen then [Diag.same_name (path_stem it.path)] else []) ++
        repeats_from (path_stem it.path :: seen) rest
    else repeats_from seen rest

/-! ## Sample inputs -/

/-- The tool output of Scenario 1: `A` depends on `B`, `B` declares `fw1.bin`. -/
def scenario1_modinfo (p : String) : String :=
  if p = "/lib/modules/k/a.ko" then "filename:       /lib/modules/k/a.ko\ndepends:        B\n"
  else if p = "/lib/modules/k/b.ko" then "firmware:       fw1.bin\ndepends:        \n"
  else ""

/-- The index and metadata of Scenario 1. -/
def scenario1 : Env := ⟨"/lib/modules/k", [("A", "a.ko"), ("B", "b.ko")], scenario1_modinfo⟩

/-- The state that resolving `A` in Scenario 1 ends in. -/
def scenario1_result : State :=
  { ko_list := [("A", ⟨["B"], [], some "a.ko", false⟩), ("B", ⟨[], [], some "b.ko", false⟩)]
    firmware := ["fw1.bin"]
    cerr := []
    read_ko_calls := ["/lib/modules/k/a.ko", "/lib/modules/k/b.ko"] }

/-- Tool output with a diamond and a cycle: `A` and `B` both depend on `C`, `C`
depends on `A` again, `A` also names `X`, which no file provides; `D` stands alone. -/
def diamond_modinfo (p : String) : String :=
  if p = "/m/a.ko" then "depends:        C,X\nfirmware:       fa.bin\n"
  else if p = "/m/b.ko" then "depends:        C\n"
  else if p = "/m/sub/c.ko" then "firmware:       fc.bin\nfirmware:       fa.bin\ndepends:        A\n"
  else if p = "/m/d.ko" then "firmware:       fd.bin\ndepends:\n"
  else ""

/-- The index and metadata of the diamond. -/
def diamond : Env :=
  ⟨"/m/", [("A", "a.ko"), ("B", "b.ko"), ("C", "sub/c.ko"), ("D", "d.ko")], diamond_modinfo⟩

/-- The state that resolving `A` and `B` in the diamond ends in. -/
def diamond_result : State :=
  { ko_list := [("A", ⟨["C", "X"], [], some "a.ko", false⟩), ("B", ⟨["C"], [], some "b.ko", false⟩),
                ("C", ⟨["A"], [], some "sub/c.ko", false⟩)]
    firmware := ["fa.bin", "fc.bin"]
    cerr := [Diag.not_found "X"]
    read_ko_calls := ["/m/a.ko", "/m/sub/c.ko", "/m/b.ko"] }

/-- The state that resolving `B` alone in the diamond ends in: the same entries, the
files read in another order. -/
def diamond_result_b : State :=
  { diamond_result with read_ko_calls := ["/m/b.ko", "/m/sub/c.ko", "/m/a.ko"] }

/-- The index and metadata of Scenario 4: the requested `A` and `B` both depend on
`C`. -/
def scenario4 : Env :=
  ⟨"/lib/modules/k", [("A", "a.ko"), ("B", "b.ko"), ("C", "c.ko")],
    fun p => if p = "/lib/modules/k/c.ko" then "depends:        \n" else "depends:        C\n"⟩

/-- The state that resolving `A` and `B` in Scenario 4 ends in. -/
def scenario4_result : State :=
  { ko_list := [("A", ⟨["C"], [], some "a.ko", false⟩), ("B", ⟨["C"], [], some "b.ko", false⟩),
                ("C", ⟨[], [], some "c.ko", false⟩)]
    firmware := []
    cerr := []
    read_ko_calls := ["/lib/modules/k/a.ko", "/lib/modules/k/c.ko", "/lib/modules/k/b.ko"] }

/-- The name of the module number `i` of the deep chain: the letter `m`, then `i / 32`
times `x` and `i % 32` times `y` (`m`, `my`, `myy`, ..., `mx`, `mxy`, ...). -/
def deep_name (i : Nat) : String :=
  String.mk ('m' :: (List.replicate (i / 32) 'x' ++ List.replicate (i % 32) 'y'))

/-- The number of the module of the deep chain that a name or a path belongs to. -/
def deep_num (p : String) : Nat := 32 * p.data.count 'x' + p.data.count 'y'

/-- The index of the deep chain: the 1027 modules number 0 to 1026, each in the file
of its name. -/
def deep_index : List (String × String) :=
  (List.range 1027).map (fun i => (deep_name i, deep_name i ++ ".ko"))

/-- The tool output for the deep chain: every module depends on the next one, the last
one on nothing. -/
def deep_modinfo (p : String) : String :=
  if deep_num p < 1026 then
    String.mk ("depends:        ".data ++ (deep_name (deep_num p + 1)).data ++ ['\n'])
  else "depends:        \n"

/-- The deep chain: module 0 depends on module 1, ..., module 1025 on module 1026. -/
def deep : Env := ⟨"/c", deep_index, deep_modinfo⟩

/-- Scenario 3: two files with the stem `net` in different directories. -/
def net_scan : List DirEntry :=
  [⟨false, "/src/a", "a"⟩, ⟨true, "/src/a/net.ko", "a/net.ko"⟩, ⟨true, "/src/a/readme", "a/readme"⟩,
   ⟨false, "/src/b", "b"⟩, ⟨true, "/src/b/net.ko", "b/net.ko"⟩, ⟨true, "/src/b/usb.ko", "b/usb.ko"⟩]

/-- All fields of a text that is separated by commas, the empty ones included: the text
between its start, its commas and its end. -/
def comma_fields : List Char → List (List Char)
  | [] => [[]]
  | c :: cs =>
    if c = ',' then [] :: comma_fields cs
    else
      match comma_fields cs with
      | [] => [[c]]
      | f :: fs => (c :: f) :: fs

/-- The non-empty comma-separated names of a text, in order. -/
def nonempty_fields (s : List Char) : List String :=
  ((comma_fields s).filter (fun f => !f.isEmpty)).map String.mk

/-- The names of a list joined with `','`. -/
def join_commas : List String → List Char
  | [] => []
  | [a] => a.data
  | a :: b :: rest => a.data ++ ',' :: join_commas (b :: rest)

/-- The first word of a line, as `is >> lh` reads it. -/
def first_word (line : List Char) : String := (read_word line).1

/-- The second word of a line, as `is >> lh >> lv` reads it. -/
def second_word (line : List Char) : String := (read_word (read_word line).2).1

/-- The member `fs::path::parent_path` on POSIX: the path without its last component
and the separators before it; the root directory is its own parent. -/
def parent_path (p : String) : String :=
  let r := p.data.reverse.dropWhile (fun c => c != '/')
  let r2 := r.dropWhile (fun c => c == '/')
  if r2 = [] then (if r = [] then "" else "/") else String.mk r2.reverse

/-- The value of an `error_code` after a call of `std::filesystem`: no error, the error
`errc::file_exists`, or any other error. -/
inductive Errc where
  | ok
  | file_exists
  | other
deriving DecidableEq, Repr

/-- The test `ec && ec != errc::file_exists`. -/
def Errc.failed : Errc → Bool
  | .other => true
  | _ => false

/-- What the file system answers to the three calls that one `my_copy_file` can make. -/
structure FsOutcome where
  create_directories : Errc
  create_hard_link : Errc
  copy_file : Errc
deriving DecidableEq, Repr

/-- What one call of `my_copy_file` does, in order: lines on `cout` and `cerr` and
calls of `std::filesystem`. -/
inductive CopyEvent where
  /-- The verbose line `src => dst`. -/
  | shown (src dst : String)
  /-- The call `fs::create_directories(dstd, ec)`. -/
  | create_directories (dstd : String)
  /-- The line `Can't create directory <dstd>`. -/
  | cant_create_directory (dstd : String)
  /-- The call `fs::create_hard_link(src, dst, ec)`. -/
  | create_hard_link (src dst : String)
  /-- The line `Can't make hard link for file <src>`. -/
  | cant_make_hard_link (src : String)
  /-- The call `fs::copy_file(src, dst, ec)`. -/
  | copy_file (src dst : String)
  /-- The line `Can't copy <src> to <dst>`. -/
  | cant_copy (src dst : String)
deriving DecidableEq, Repr

/-- The function `my_copy_file`.  The last argument is the value of its static variable
`errflag` on entry; the result is what the call does and the value of `errflag` after
it. -/
def my_copy_file (verbose try_link : Bool) (src dst : String) (o : FsOutcome)
    (errflag : Bool) : List CopyEvent × Bool :=
  let e1 := if verbose then [CopyEvent.shown src dst] else []
  let dstd := parent_path dst
  let e2 := CopyEvent.create_directories dstd ::
    (if o.create_directories.failed then [CopyEvent.cant_create_directory dstd] else [])
  let e3 : List CopyEvent × Bool :=
    if try_link then
      if o.create_hard_link.failed && !errflag then
        ([CopyEvent.create_hard_link src dst, CopyEvent.cant_make_hard_link src], true)
      else ([CopyEvent.create_hard_link src dst], errflag)
    else ([], errflag)
  let e4 := CopyEvent.copy_file src dst ::
    (if o.copy_file.failed then [CopyEvent.cant_copy src dst] else [])
  (e1 ++ e2 ++ e3.1 ++ e4, e3.2)

/-- Successive calls of `my_copy_file`, each with its source, its destination and the
answers of the file system; the result lists what each call does. -/
def copy_run (verbose try_link : Bool) :
    List (String × String × FsOutcome) → Bool → List (List CopyEvent)
  | [], _ => []
  | (src, dst, o) :: rest, errflag =>
    (my_copy_file verbose try_link src dst o errflag).1 ::
      copy_run verbose try_link rest (my_copy_file verbose try_link src dst o errflag).2

/-- The function `copy_modules`: the source and destination of each `my_copy_file` call
it makes, in the order of `ko_list`, and whether `assert(mi.path)` stopped the loop. -/
def copy_modules (srcdir dstdir : String) :
    List (String × Ko_info) → List (String × String) × Bool
  | [] => ([], false)
  | (_, mi) :: rest =>
    match mi.path with
    | none => ([], true)
    | some p =>
      ((path_append srcdir p, path_append dstdir p) :: (copy_modules srcdir dstdir rest).1,
        (copy_modules srcdir dstdir rest).2)

/-- The function `copy_firmware`: the source and destination of each `my_copy_file`
call it makes. -/
def copy_firmware (fwsrc fwdst : String) (firmware : List String) : List (String × String) :=
  firmware.map (fun fn => (path_append fwsrc fn, path_append fwdst fn))

/-- Whether the link attempt of a call fails with an error other than file-exists. -/
def link_fails (c : String × String × FsOutcome) : Bool := c.2.2.create_hard_link.failed

/-- Whether an event is the line `Can't make hard link for file ...`. -/
def is_link_diag : CopyEvent → Bool
  | .cant_make_hard_link _ => true
  | _ => false

/-- An index with one module `A` that depends on `X`, which no file provides. -/
def scenario2 : Env :=
  ⟨"/lib/modules/k", [("A", "a.ko")], fun _ => "depends:        X\n"⟩

/-- The state that resolving `A` and the unknown name `Z` in `scenario2` ends in. -/
def scenario2_result : State :=
  { ko_list := [("A", ⟨["X"], [], some "a.ko", false⟩)]
    firmware := []
    cerr := [Diag.not_found "X", Diag.not_found "Z"]
    read_ko_calls := ["/lib/modules/k/a.ko"] }

/-- A `ko_list` whose only module depends on itself. -/
def self_loop : State :=
  { ko_list := [("A", ⟨["A"], [], some "a.ko", false⟩)] }

/-! ## `parse_args` -/

/-- One value that `getopt_long` hands to the loop of `parse_args`: the code it
returns together with `optarg`.  With the option string `"-vlf:"` every argument that
is not an option comes back with code 1. -/
inductive GetoptResult where
  /-- Code `'?'`: an option that `getopt_long` does not know. -/
  | unknown
  /-- Code `'f'`, for `-f DIR` and `--from=DIR`. -/
  | opt_f (optarg : String)
  /-- Code `'v'`, for `-v` and `--verbose`. -/
  | opt_v
  /-- Code `'l'`, for `-l` and `--link`. -/
  | opt_l
  /-- Code 2, for `--fwsrc=DIR`. -/
  | fwsrc (optarg : String)
  /-- Code 3, for `--fwdst=DIR`. -/
  | fwdst (optarg : String)
  /-- Code 0, for `--help` and `--version`, which take no argument: `optarg` is the
  null pointer (`none`) then. -/
  | long0 (optarg : Option String)
  /-- Code 1: an argument that is not an option. -/
  | nonoption (optarg : String)
deriving DecidableEq, Repr

/-- Ways in which `parse_args` ends the program. -/
inductive Stop where
  /-- The function `show_help`: the usage text on `cout`, then `exit(0)`. -/
  | help
  /-- The function `show_version`: the version text on `cout`, then `exit(0)`. -/
  | version
  /-- A call `error(status, ...)` with a non-zero status: the message on `cerr`, then
  `exit(status)`. -/
  | error (status : Nat) (message : String)
  /-- The call `strcmp(optarg, ...)` on a null `optarg`: undefined behaviour. -/
  | null_optarg
deriving DecidableEq, Repr

/-- The exit status of the program, where the source fixes one. -/
def Stop.exit_status : Stop → Option Nat
  | .help => some 0
  | .version => some 0
  | .error status _ => some status
  | .null_optarg => none

/-- The locals `res`, `srcdir_s`, `fwsrc_s`, `fwdst_s` of `parse_args` and the globals
`verbose` and `try_link`, while the loop over `getopt_long` runs. -/
structure ArgAcc where
  res : List String := []
  srcdir_s : String := ""
  fwsrc_s : String := ""
  fwdst_s : String := ""
  verbose : Bool := false
  try_link : Bool := false
deriving DecidableEq, Repr

/-- The `switch` in the loop of `parse_args`. -/
def parse_step (acc : ArgAcc) : GetoptResult → Except Stop ArgAcc
  | .unknown => .error .help
  | .opt_f optarg => .ok { acc with srcdir_s := optarg }
  | .opt_v => .ok { acc with verbose := true }
  | .opt_l => .ok { acc with try_link := true }
  | .fwsrc optarg => .ok { acc with fwsrc_s := optarg }
  | .fwdst optarg => .ok { acc with fwdst_s := optarg }
  | .long0 none => .error .null_optarg
  | .long0 (some optarg) =>
    if optarg = "--help" then .error .help
    else if optarg = "--version" then .error .version
    else .error (.error 1 ("Unrecognized option " ++ optarg))
  | .nonoption optarg => .ok { acc with res := acc.res ++ [optarg] }

/-- The call `std::sort(res.begin(), res.end())`: the names in ascending order of
`std::string`, here built by ordered insertion. -/
def sort_strings (l : List String) : List String :=
  l.insertionSort (fun a b => string_lt b a = false)

/-- The scan of `std::unique`: an element equal to the last one kept is dropped. -/
def unique_from (prev : String) : List String → List String
  | [] => []
  | y :: rest => if prev = y then unique_from prev rest else y :: unique_from y rest

/-- The statement `res.erase(unique(res.begin(), res.end()), res.end())`. -/
def unique_strings : List String → List String
  | [] => []
  | x :: rest => x :: unique_from x rest

/-- What `parse_args` returns and the globals it has set. -/
structure Args where
  res : List String
  srcdir : String
  dstdir : String
  fwsrc : String
  fwdst : String
  verbose : Bool
  try_link : Bool
deriving DecidableEq, Repr

/-- The function `parse_args` on the values that `getopt_long` delivers until it
returns -1; `release` is the kernel release that `uname` reports, `none` when `uname`
fails.  When `verbose` is set, the four directories are also written to `cout`. -/
def parse_args (release : Option String) (results : List GetoptResult) : Except Stop Args :=
  match results.foldlM parse_step {} with
  | .error e => .error e
  | .ok acc =>
    let srcdir : Except Stop String :=
      if acc.srcdir_s = "" then
        match release with
        | none => .error (.error 1 "Uname error")
        | some r => .ok ("/lib/modules/" ++ r)
      else .ok acc.srcdir_s
    match srcdir with
    | .error e => .error e
    | .ok srcdir =>
      if acc.res.length < 2 then .error .help
      else
        let dstdir := acc.res.getLast?.getD ""
        let res := acc.res.dropLast
        .ok
          { res := unique_strings (sort_strings res)
            srcdir := srcdir
            dstdir := dstdir
            fwsrc :=
              if acc.fwsrc_s = "" then path_append (parent_path (parent_path srcdir)) "firmware"
              else acc.fwsrc_s
            fwdst :=
              if acc.fwdst_s = "" then path_append (parent_path (parent_path dstdir)) "firmware"
              else acc.fwdst_s
            verbose := acc.verbose
            try_link := acc.try_link }

/-- The positional arguments: the arguments that are not options, in order. -/
def positional (results : List GetoptResult) : List String :=
  results.filterMap (fun g => match g with
    | .nonoption optarg => some optarg
    | _ => none)

/-- The order `a ≤ b` of `std::string`. -/
def string_le (a b : String) : Prop := string_lt b a = false

/-- What `getopt_long` delivers for
`copyko -v usb ext4 -l usb /mnt/lib/modules/6.1.0`. -/
def sample_cmdline : List GetoptResult :=
  [.opt_v, .nonoption "usb", .nonoption "ext4", .opt_l, .nonoption "usb",
    .nonoption "/mnt/lib/modules/6.1.0"]

/-- What `parse_args` returns for `sample_cmdline` on a kernel of release `6.1.0`. -/
def sample_args : Args :=
  ⟨["ext4", "usb"], "/lib/modules/6.1.0", "/mnt/lib/modules/6.1.0", "/lib/firmware",
    "/mnt/lib/firmware", true, true⟩

/-- The calls of Scenario 5: two files in link mode, and both link attempts fail with
an error other than file-exists. -/
def scenario5 : List (String × String × FsOutcome) :=
  [("/s/a.ko", "/d/a.ko", ⟨.ok, .other, .ok⟩), ("/s/b.ko", "/d/b.ko", ⟨.ok, .other, .ok⟩)]

/-! ## Containers -/

theorem map_find_put {β : Type} (m : List (String × β)) (k : String) (v : β) (k' : String) :
    map_find (map_put m k v) k' = if k' = k then some v else map_find m k' := by
  induction m with
  | nil => simp [map_put, map_find]
  | cons e rest ih =>
    obtain ⟨a, w⟩ := e
    simp only [map_put]
    split
    · simp [map_find]
    · split
      · rename_i h; subst h
        simp only [map_find]
        split <;> rfl
      · rename_i h
        simp only [map_find, ih]
        by_cases h1 : k' = a
        · have : k' ≠ k := fun h2 => h (h2 ▸ h1)
          subst h1
          simp [Ne.symm h]
        · simp [h1]

theorem mem_set_insert (s : List String) (x a : String) :
    a ∈ set_insert s x ↔ a = x ∨ a ∈ s := by
  induction s with
  | nil => simp [set_insert]
  | cons y ys ih =>
    simp only [set_insert]
    split
    · simp
    · split
      · rename_i h; subst h; simp
      · simp [ih]; tauto

theorem mem_map_keys {β : Type} (m : List (String × β)) (k : String) :
    k ∈ map_keys m ↔ ∃ v, map_find m k = some v := by
  induction m with
  | nil => simp [map_keys, map_find]
  | cons e rest ih =>
    obtain ⟨a, w⟩ := e
    simp only [map_keys, List.map_cons, List.mem_cons, map_find] at ih ⊢
    by_cases h : k = a
    · simp [h]
    · simp [h, ih]

theorem map_keys_put_perm {β : Type} (m : List (String × β)) (k : String) (v : β)
    (h : map_find m k = none) : (map_keys (map_put m k v)).Perm (k :: map_keys m) := by
  induction m with
  | nil => simp [map_put, map_keys]
  | cons e rest ih =>
    obtain ⟨a, w⟩ := e
    simp only [map_find] at h
    split at h
    · simp at h
    · rename_i hne
      simp only [map_put]
      split
      · simp [map_keys]
      · simp only [map_keys, List.map_cons] at ih ⊢
        exact ((ih h).cons a).trans (List.Perm.swap k a _)


/-! ## The metadata reader -/

theorem mem_foldl_set_insert (xs s : List String) (a : String) :
    a ∈ xs.foldl set_insert s ↔ a ∈ s ∨ a ∈ xs := by
  induction xs generalizing s with
  | nil => simp
  | cons x xs ih => simp [ih, mem_set_insert]; tauto

theorem read_ko_line_res (acc : ReadAcc) (line : List Char) :
    (read_ko_line acc line).res = acc.res ++ (read_ko_line ⟨[], [], false⟩ line).res := by
  simp only [read_ko_line]
  split_ifs <;> simp

theorem read_ko_line_found (acc : ReadAcc) (line : List Char) :
    (read_ko_line acc line).depends_found =
      (acc.depends_found || (read_ko_line ⟨[], [], false⟩ line).depends_found) := by
  simp only [read_ko_line]
  split_ifs <;> simp

theorem read_ko_line_firmware (acc : ReadAcc) (line : List Char) (a : String) :
    a ∈ (read_ko_line acc line).firmware ↔
      a ∈ acc.firmware ∨ a ∈ (read_ko_line ⟨[], [], false⟩ line).firmware := by
  simp only [read_ko_line]
  split_ifs <;> simp [mem_foldl_set_insert]

theorem read_ko_fold_res (lines : List (List Char)) (acc : ReadAcc) :
    (lines.foldl read_ko_line acc).res =
      acc.res ++ (lines.foldl read_ko_line ⟨[], [], false⟩).res := by
  induction lines generalizing acc with
  | nil => simp
  | cons l ls ih =>
    simp only [List.foldl_cons]
    rw [ih, ih (read_ko_line ⟨[], [], false⟩ l), read_ko_line_res acc l, List.append_assoc]

theorem read_ko_fold_found (lines : List (List Char)) (acc : ReadAcc) :
    (lines.foldl read_ko_line acc).depends_found =
      (acc.depends_found || (lines.foldl read_ko_line ⟨[], [], false⟩).depends_found) := by
  induction lines generalizing acc with
  | nil => simp
  | cons l ls ih =>
    simp only [List.foldl_cons]
    rw [ih, ih (read_ko_line ⟨[], [], false⟩ l), read_ko_line_found acc l, Bool.or_assoc]

theorem read_ko_fold_firmware (lines : List (List Char)) (acc : ReadAcc) (a : String) :
    a ∈ (lines.foldl read_ko_line acc).firmware ↔
      a ∈ acc.firmware ∨ a ∈ (lines.foldl read_ko_line ⟨[], [], false⟩).firmware := by
  induction lines generalizing acc with
  | nil => simp
  | cons l ls ih =>
    simp only [List.foldl_cons]
    rw [ih, ih (read_ko_line ⟨[], [], false⟩ l), read_ko_line_firmware acc l, or_assoc]

/-- What `read_ko` returns, in terms of what the tool declares for the path. -/
theorem read_ko_eq (env : Env) (module : String) (fw : List String) :
    read_ko env.modinfo module fw =
      if depends_found env module then
        .ok (declared_deps env module, (read_ko_scan (env.modinfo module) fw).firmware)
      else .error .assert_depends_found := by
  unfold read_ko depends_found declared_deps read_ko_scan
  simp only []
  rw [read_ko_fold_found, read_ko_fold_res]
  simp

theorem mem_read_ko_scan_firmware (env : Env) (module : String) (fw : List String) (a : String) :
    a ∈ (read_ko_scan (env.modinfo module) fw).firmware ↔
      a ∈ fw ∨ a ∈ declared_firmware env module := by
  unfold declared_firmware read_ko_scan
  rw [read_ko_fold_firmware]


/-! ## The resolver -/

theorem Extends.refl (st : State) : Extends st st := ⟨fun _ _ h => h, fun _ h => h⟩

theorem Extends.trans {a b c : State} (h1 : Extends a b) (h2 : Extends b c) : Extends a c :=
  ⟨fun k ki h => h2.keep k ki (h1.keep k ki h), fun d h => h2.cerr d (h1.cerr d h)⟩

theorem Closed.mono {env : Env} {a b : State} {k : String} {ki : Ko_info} (h : Extends a b)
    (hk : map_find a.ko_list k = some ki) (hc : Closed env a k) : Closed env b k := by
  intro ki' hki' d hd
  have e : ki' = ki := by
    have := h.keep k ki hk
    rw [this] at hki'
    exact (Option.some.inj hki').symm
  subst e
  rcases hc ki' hk d hd with ⟨kd, hkd⟩ | ⟨hn, hm⟩
  · exact Or.inl ⟨kd, h.keep d kd hkd⟩
  · exact Or.inr ⟨hn, h.cerr _ hm⟩

theorem foldlM_cons_ok {f : State → String → Except Abort State} {n : String} {ns : List String}
    {st st2 : State} (h : (n :: ns).foldlM f st = .ok st2) :
    ∃ s1, f st n = .ok s1 ∧ ns.foldlM f s1 = .ok st2 := by
  rw [List.foldlM_cons] at h
  cases hf : f st n with
  | error e => rw [hf] at h; cases h
  | ok s1 => rw [hf] at h; exact ⟨s1, rfl, h⟩

theorem processed_fold (env : Env) (f : State → String → Except Abort State)
    (hf : ∀ n s1 s2, f s1 n = .ok s2 → Inv env s1 → Processed env [n] s1 s2)
    (names : List String) (st st2 : State) (h : names.foldlM f st = .ok st2)
    (hinv : Inv env st) : Processed env names st st2 := by
  induction names generalizing st with
  | nil =>
    have e : st2 = st := by
      simp only [List.foldlM_nil] at h
      cases h; rfl
    subst e
    refine ⟨hinv, Extends.refl _, ?_, ?_⟩
    · intro n hn; cases hn
    · intro k ki h1 h2; rw [h1] at h2; cases h2
  | cons n ns ih =>
    obtain ⟨s1, h1, h2⟩ := foldlM_cons_ok h
    have p1 := hf n st s1 h1 hinv
    have p2 := ih s1 h2 p1.inv
    refine ⟨p2.inv, p1.ext.trans p2.ext, ?_, ?_⟩
    · intro m hm
      rcases List.mem_cons.1 hm with rfl | hm
      · rcases p1.done m (List.mem_singleton.2 rfl) with ⟨ki, hki⟩ | ⟨hn, hd⟩
        · exact Or.inl ⟨ki, p2.ext.keep _ _ hki⟩
        · exact Or.inr ⟨hn, p2.ext.cerr _ hd⟩
      · exact p2.done m hm
    · intro k ki hk hnone
      cases hk1 : map_find s1.ko_list k with
      | none =>
        obtain ⟨⟨m, hm, hr⟩, hc⟩ := p2.fresh k ki hk hk1
        exact ⟨⟨m, List.mem_cons_of_mem _ hm, hr⟩, hc⟩
      | some ki1 =>
        obtain ⟨⟨m, hm, hr⟩, hc⟩ := p1.fresh k ki1 hk1 hnone
        exact ⟨⟨m, by rw [List.mem_singleton.1 hm]; exact List.mem_cons_self _ _, hr⟩,
          hc.mono p2.ext hk1⟩


theorem Inv.of_eq {env : Env} {a b : State} (h : Inv env a) (h1 : b.ko_list = a.ko_list)
    (h2 : b.firmware = a.firmware) (h3 : b.read_ko_calls = a.read_ko_calls) : Inv env b := by
  refine ⟨?_, ?_, ?_, ?_⟩
  · rw [h1]; exact h.entry
  · rw [h1, h2]; exact h.fw
  · rw [h1, h3]; exact h.calls
  · rw [h1]; exact h.nodup

theorem Inv.enter {env : Env} {st : State} (h : Inv env st) (name pth : String)
    (hidx : map_find env.all_ko name = some pth) (hnew : map_find st.ko_list name = none)
    (hgood : depends_found env (path_append env.srcdir pth) = true) :
    Inv env
      { st with
        ko_list := map_put st.ko_list name
          { path := some pth, deps := declared_deps env (path_append env.srcdir pth) }
        firmware := (read_ko_scan (env.modinfo (path_append env.srcdir pth)) st.firmware).firmware
        read_ko_calls := st.read_ko_calls ++ [path_append env.srcdir pth] } := by
  refine ⟨?_, ?_, ?_, ?_⟩
  · intro k ki hk
    simp only [map_find_put] at hk
    split at hk
    · rename_i e; subst e
      exact ⟨pth, hidx, (Option.some.inj hk).symm, hgood⟩
    · exact h.entry k ki hk
  · intro x
    simp only [mem_read_ko_scan_firmware, map_find_put, h.fw x]
    constructor
    · rintro (⟨k, ki, p, hk, hp, hx⟩ | hx)
      · refine ⟨k, ki, p, ?_, hp, hx⟩
        have : k ≠ name := by rintro rfl; rw [hnew] at hk; cases hk
        simp [this, hk]
      · exact ⟨name, ⟨declared_deps env (path_append env.srcdir pth), [], some pth, false⟩,
          pth, by simp, rfl, hx⟩
    · rintro ⟨k, ki, p, hk, hp, hx⟩
      split at hk
      · have e := (Option.some.inj hk).symm
        subst e
        simp only [Option.some.injEq] at hp
        subst hp
        exact Or.inr hx
      · exact Or.inl ⟨k, ki, p, hk, hp, hx⟩
  · have hp := map_keys_put_perm st.ko_list name
      ({ path := some pth, deps := declared_deps env (path_append env.srcdir pth) } : Ko_info) hnew
    refine List.Perm.trans ?_ (hp.map _).symm
    simp only [List.map_cons, module_file, hidx, Option.getD_some]
    exact (List.perm_append_singleton _ _).trans (h.calls.cons _)
  · have hp := map_keys_put_perm st.ko_list name
      ({ path := some pth, deps := declared_deps env (path_append env.srcdir pth) } : Ko_info) hnew
    refine hp.nodup_iff.2 (List.nodup_cons.2 ⟨?_, h.nodup⟩)
    intro hm
    obtain ⟨v, hv⟩ := (mem_map_keys _ _).1 hm
    rw [hnew] at hv; cases hv

/-- The effect of one call of `process_module` that returns. -/
theorem process_module_spec (env : Env) (fuel : Nat) : ∀ (name : String) (st st2 : State),
    process_module env fuel name st = .ok st2 → Inv env st →
    Processed env [name] st st2 := by
  induction fuel with
  | zero => intro name st st2 h; simp [process_module] at h
  | succ fuel ih =>
    intro name st st2 h hinv
    simp only [process_module] at h
    cases hidx : map_find env.all_ko name with
    | none =>
      rw [hidx] at h
      simp only [Except.ok.injEq] at h
      subst h
      refine ⟨hinv.of_eq rfl rfl rfl, ⟨fun _ _ h => h, fun d hd => by simp [hd]⟩, ?_, ?_⟩
      · intro n hn
        rw [List.mem_singleton.1 hn]
        exact Or.inr ⟨hidx, by simp⟩
      · intro k ki h1 h2
        simp only at h1
        rw [h1] at h2; cases h2
    | some pth =>
      rw [hidx] at h
      simp only at h
      cases hk : map_find st.ko_list name with
      | some ki =>
        rw [hk] at h
        simp only [Except.ok.injEq] at h
        subst h
        refine ⟨hinv, Extends.refl _, ?_, ?_⟩
        · intro n hn
          rw [List.mem_singleton.1 hn]
          exact Or.inl ⟨ki, hk⟩
        · intro k ki h1 h2
          rw [h1] at h2; cases h2
      | none =>
        rw [hk, read_ko_eq] at h
        simp only at h
        cases hgood : depends_found env (path_append env.srcdir pth) with
        | false => rw [hgood] at h; simp at h
        | true =>
          rw [hgood] at h
          simp only [if_true] at h
          have hinv1 := hinv.enter name pth hidx hk hgood
          have p := processed_fold env _ (fun n s1 s2 hs hi => ih n s1 s2 hs hi) _ _ _ h hinv1
          have hext : Extends st st2 := by
            refine Extends.trans (b := _) ⟨?_, ?_⟩ p.ext
            · intro k ki hki
              have : k ≠ name := by rintro rfl; rw [hk] at hki; cases hki
              simp [map_find_put, this, hki]
            · intro d hd; exact hd
          have hname : map_find st2.ko_list name = some
              { path := some pth, deps := declared_deps env (path_append env.srcdir pth) } :=
            p.ext.keep _ _ (by simp [map_find_put])
          refine ⟨p.inv, hext, ?_, ?_⟩
          · intro n hn
            rw [List.mem_singleton.1 hn]
            exact Or.inl ⟨_, hname⟩
          · intro k ki hki hnone
            by_cases e : k = name
            · subst e
              refine ⟨⟨k, List.mem_singleton.2 rfl, Relation.ReflTransGen.refl⟩, ?_⟩
              intro ki2 hki2 d hd
              rw [hname] at hki2
              have e2 := (Option.some.inj hki2).symm
              subst e2
              exact p.done d hd
            · have hnone1 : map_find (map_put st.ko_list name
                  ({ path := some pth, deps := declared_deps env (path_append env.srcdir pth) } :
                    Ko_info)) k = none := by
                simp [map_find_put, e, hnone]
              obtain ⟨⟨m, hm, hr⟩, hc⟩ := p.fresh k ki hki hnone1
              exact ⟨⟨name, List.mem_singleton.2 rfl,
                Relation.ReflTransGen.head ⟨pth, hidx, hm⟩ hr⟩, hc⟩

theorem Inv.init (env : Env) : Inv env {} := by
  refine ⟨?_, ?_, ?_, ?_⟩
  · intro k ki h; simp [map_find] at h
  · intro x; simp [map_find]
  · simp [map_keys]
  · simp [map_keys]

theorem resolve_spec (env : Env) (ko_files : List String) (st : State)
    (h : resolve env ko_files = .ok st) : Processed env ko_files {} st :=
  processed_fold env _ (fun n s1 s2 hs hi => process_module_spec env _ n s1 s2 hs hi)
    ko_files {} st h (Inv.init env)

theorem resolve_closed (env : Env) (ko_files : List String) (st : State)
    (h : resolve env ko_files = .ok st) (k : String) : Closed env st k := by
  intro ki hk
  exact ((resolve_spec env ko_files st h).fresh k ki hk (by simp [map_find])).2 ki hk

theorem map_find_mem {β : Type} (m : List (String × β)) (k : String) (v : β)
    (h : map_find m k = some v) : (k, v) ∈ m := by
  induction m with
  | nil => simp [map_find] at h
  | cons e rest ih =>
    obtain ⟨a, w⟩ := e
    simp only [map_find] at h
    split at h
    · rename_i e; subst e; cases h; exact List.mem_cons_self _ _
    · exact List.mem_cons_of_mem _ (ih h)

theorem countP_lt {α : Type} (p q : α → Bool) (l : List α) (hpq : ∀ x ∈ l, p x = true → q x = true)
    (x : α) (hx : x ∈ l) (hq : q x = true) (hp : p x = false) : l.countP p < l.countP q := by
  induction l with
  | nil => cases hx
  | cons a l ih =>
    have hmono : l.countP p ≤ l.countP q :=
      List.countP_mono_left (fun y hy h => hpq y (List.mem_cons_of_mem _ hy) h)
    rcases List.mem_cons.1 hx with rfl | hx
    · rw [List.countP_cons_of_pos _ _ hq, List.countP_cons_of_neg _ _ (by simp [hp])]
      omega
    · have := ih (fun y hy h => hpq y (List.mem_cons_of_mem _ hy) h) hx
      have ha := hpq a (List.mem_cons_self _ _)
      by_cases hpa : p a = true
      · rw [List.countP_cons_of_pos _ _ hpa, List.countP_cons_of_pos _ _ (ha hpa)]
        omega
      · rw [List.countP_cons_of_neg _ _ hpa]
        by_cases hqa : q a = true
        · rw [List.countP_cons_of_pos _ _ hqa]; omega
        · rw [List.countP_cons_of_neg _ _ hqa]; omega

theorem unvisited_mono (env : Env) {a b : State} (h : Extends a b) :
    unvisited env b ≤ unvisited env a := by
  apply List.countP_mono_left
  intro e _ he
  cases hf : map_find a.ko_list e.1 with
  | none => rfl
  | some ki => rw [h.keep _ _ hf] at he; cases he

theorem unvisited_enter (env : Env) (st : State) (name pth : String) (ki : Ko_info)
    (fw : List String) (calls : List String)
    (hidx : map_find env.all_ko name = some pth) (hnew : map_find st.ko_list name = none) :
    unvisited env { st with ko_list := map_put st.ko_list name ki, firmware := fw,
                            read_ko_calls := calls } < unvisited env st := by
  apply countP_lt _ _ _ _ (name, pth) (map_find_mem _ _ _ hidx)
  · simp [hnew]
  · simp [map_find_put]
  · intro e _ he
    simp only [map_find_put] at he
    split at he
    · cases he
    · exact he

theorem fold_progress (env : Env) (f : State → String → Except Abort State) (bound : Nat)
    (hspec : ∀ n s1 s2, f s1 n = .ok s2 → Inv env s1 → Processed env [n] s1 s2)
    (hf : ∀ n s, Inv env s → unvisited env s ≤ bound →
      (∃ s2, f s n = .ok s2) ∨ (f s n = .error .assert_depends_found ∧ Malformed env n))
    (names : List String) (st : State) (hinv : Inv env st) (hb : unvisited env st ≤ bound) :
    (∃ st2, names.foldlM f st = .ok st2) ∨
      (names.foldlM f st = .error .assert_depends_found ∧ ∃ n ∈ names, Malformed env n) := by
  induction names generalizing st with
  | nil => exact Or.inl ⟨st, rfl⟩
  | cons n ns ih =>
    rw [List.foldlM_cons]
    rcases hf n st hinv hb with ⟨s1, h1⟩ | ⟨h1, hbad⟩
    · rw [h1]
      have p := hspec n st s1 h1 hinv
      rcases ih s1 p.inv (le_trans (unvisited_mono env p.ext) hb) with ⟨st2, h2⟩ | ⟨h2, m, hm, hbad⟩
      · exact Or.inl ⟨st2, h2⟩
      · exact Or.inr ⟨h2, m, List.mem_cons_of_mem _ hm, hbad⟩
    · rw [h1]
      exact Or.inr ⟨rfl, n, List.mem_cons_self _ _, hbad⟩

/-- A call of `process_module` whose budget exceeds the number of index entries that
are not yet in `ko_list` returns, unless `read_ko` stops the program at a module that
is reachable from `name`. -/
theorem process_module_enough_fuel (env : Env) (fuel : Nat) : ∀ (name : String) (st : State),
    Inv env st → unvisited env st < fuel →
    (∃ st2, process_module env fuel name st = .ok st2) ∨
      (process_module env fuel name st = .error .assert_depends_found ∧ Malformed env name) := by
  induction fuel with
  | zero => intro name st _ h; omega
  | succ fuel ih =>
    intro name st hinv hlt
    simp only [process_module]
    cases hidx : map_find env.all_ko name with
    | none => exact Or.inl ⟨_, rfl⟩
    | some pth =>
      simp only
      cases hk : map_find st.ko_list name with
      | some ki => exact Or.inl ⟨_, rfl⟩
      | none =>
        rw [read_ko_eq]
        simp only
        cases hgood : depends_found env (path_append env.srcdir pth) with
        | false =>
          refine Or.inr ⟨by simp, name, pth, Relation.ReflTransGen.refl, hidx, hgood⟩
        | true =>
          simp only [if_true]
          have hinv1 := hinv.enter name pth hidx hk hgood
          have hlt1 := unvisited_enter env st name pth
            ⟨declared_deps env (path_append env.srcdir pth), [], some pth, false⟩
            (read_ko_scan (env.modinfo (path_append env.srcdir pth)) st.firmware).firmware
            (st.read_ko_calls ++ [path_append env.srcdir pth]) hidx hk
          rcases fold_progress env _ (fuel - 1)
            (fun n s1 s2 hs hi => process_module_spec env fuel n s1 s2 hs hi)
            (fun n s hi hs => ih n s hi (by omega)) (declared_deps env (path_append env.srcdir pth))
            _ hinv1 (by omega) with h | ⟨h, m, hm, k, p, hr, hp, hb⟩
          · exact Or.inl h
          · exact Or.inr ⟨h, k, p, Relation.ReflTransGen.head ⟨pth, hidx, hm⟩ hr, hp, hb⟩

theorem unvisited_le_length (env : Env) (st : State) : unvisited env st ≤ env.all_ko.length :=
  List.countP_le_length _

/-- The loop of `main` over the requested names returns, unless `read_ko` stops the
program at a module that is reachable from a requested name. -/
theorem resolve_total (env : Env) (ko_files : List String) :
    (∃ st, resolve env ko_files = .ok st) ∨
      (resolve env ko_files = .error .assert_depends_found ∧
        ∃ n ∈ ko_files, Malformed env n) :=
  fold_progress env _ env.all_ko.length
    (fun n s1 s2 hs hi => process_module_spec env _ n s1 s2 hs hi)
    (fun n s hi hs => process_module_enough_fuel env _ n s hi (by omega))
    ko_files {} (Inv.init env) (unvisited_le_length env _)

theorem Reach.indexed_left (env : Env) {a b : String} (h : Reach env a b) (p : String)
    (hb : map_find env.all_ko b = some p) : ∃ q, map_find env.all_ko a = some q := by
  rcases Relation.ReflTransGen.cases_head h with rfl | ⟨c, ⟨q, hq, _⟩, _⟩
  · exact ⟨p, hb⟩
  · exact ⟨q, hq⟩

/-- In a state whose entries are all closed, each indexed module that is reachable
from an entry is an entry. -/
theorem reach_entry (env : Env) (st : State) (hinv : Inv env st)
    (hclosed : ∀ k, Closed env st k) {a m : String} (hr : Reach env a m)
    (ha : ∃ ki, map_find st.ko_list a = some ki) (p : String)
    (hm : map_find env.all_ko m = some p) : ∃ km, map_find st.ko_list m = some km := by
  induction hr generalizing p with
  | refl => exact ha
  | tail hab hbc ih =>
    rename_i b c
    obtain ⟨q, hq, hc⟩ := hbc
    obtain ⟨kb, hkb⟩ := ih q hq
    obtain ⟨q2, hq2, hkb2, _⟩ := hinv.entry b kb hkb
    rw [hq] at hq2
    cases hq2
    rcases hclosed b kb hkb c (by rw [hkb2]; exact hc) with h | ⟨h, _⟩
    · exact h
    · rw [hm] at h; cases h

/-! ## Claims on resolution -/

/-- C1, closure correctness: after `process_module` has been run from the empty
`ko_list` for each requested name, every entry `M` of `ko_list` holds the dependency
list that `read_ko` returned for its file, and each name `d` of that list is a key of
`ko_list`, or is absent from the index and `d not found` was written to `cerr`. -/
theorem closure_correctness (env : Env) (ko_files : List String) (st : State)
    (h : resolve env ko_files = .ok st) :
    ∀ M ki, map_find st.ko_list M = some ki →
      ki.deps = declared_deps env (module_file env M) ∧
      ∀ d ∈ ki.deps, d ∈ map_keys st.ko_list ∨
        (map_find env.all_ko d = none ∧ Diag.not_found d ∈ st.cerr) := by
  intro M ki hM
  have p := resolve_spec env ko_files st h
  constructor
  · obtain ⟨pth, hp, hki, _⟩ := p.inv.entry M ki hM
    simp only [module_file, hp, Option.getD_some, hki]
  · intro d hd
    rcases resolve_closed env ko_files st h M ki hM d hd with hk | hn
    · exact Or.inl ((mem_map_keys _ _).2 hk)
    · exact Or.inr hn

/-- Scenario 1 as an instance of C1. -/
theorem closure_correctness_witness :
    resolve scenario1 ["A"] = .ok scenario1_result ∧
    ∀ M ki, map_find scenario1_result.ko_list M = some ki →
      ki.deps = declared_deps scenario1 (module_file scenario1 M) ∧
      ∀ d ∈ ki.deps, d ∈ map_keys scenario1_result.ko_list ∨
        (map_find scenario1.all_ko d = none ∧ Diag.not_found d ∈ scenario1_result.cerr) :=
  ⟨rfl, closure_correctness scenario1 ["A"] scenario1_result rfl⟩

/-- C2, firmware union: after resolution from the empty state a name is in the
firmware set exactly when `read_ko` declares it for the file of some entry of
`ko_list`. -/
theorem firmware_union (env : Env) (ko_files : List String) (st : State)
    (h : resolve env ko_files = .ok st) :
    ∀ x, x ∈ st.firmware ↔
      ∃ M ki, map_find st.ko_list M = some ki ∧
        x ∈ declared_firmware env (module_file env M) := by
  intro x
  have p := resolve_spec env ko_files st h
  rw [p.inv.fw x]
  constructor
  · rintro ⟨M, ki, pth, hM, hp, hx⟩
    refine ⟨M, ki, hM, ?_⟩
    obtain ⟨q, hq, hki, _⟩ := p.inv.entry M ki hM
    subst hki
    cases hp
    simpa only [module_file, hq, Option.getD_some] using hx
  · rintro ⟨M, ki, hM, hx⟩
    obtain ⟨q, hq, hki, _⟩ := p.inv.entry M ki hM
    refine ⟨M, ki, q, hM, by rw [hki], ?_⟩
    simpa only [module_file, hq, Option.getD_some] using hx

/-- The diamond as an instance of C2. -/
theorem firmware_union_witness :
    resolve diamond ["A", "B"] = .ok diamond_result ∧
    ∀ x, x ∈ diamond_result.firmware ↔
      ∃ M ki, map_find diamond_result.ko_list M = some ki ∧
        x ∈ declared_firmware diamond (module_file diamond M) :=
  ⟨rfl, firmware_union diamond ["A", "B"] diamond_result rfl⟩

/-- C3, at-most-once query: after resolution the keys of `ko_list` are pairwise
distinct and the calls of `read_ko` are, up to their order, one call per key, on the
file of that key; there is no other call. -/
theorem query_once (env : Env) (ko_files : List String) (st : State)
    (h : resolve env ko_files = .ok st) :
    (map_keys st.ko_list).Nodup ∧
    st.read_ko_calls.Perm ((map_keys st.ko_list).map (module_file env)) :=
  ⟨(resolve_spec env ko_files st h).inv.nodup, (resolve_spec env ko_files st h).inv.calls⟩

/-- The diamond, with `B` requested twice, as an instance of C3. -/
theorem query_once_witness :
    resolve diamond ["A", "B", "C", "B"] = .ok diamond_result ∧
    (map_keys diamond_result.ko_list).Nodup ∧
    diamond_result.read_ko_calls.Perm
      ((map_keys diamond_result.ko_list).map (module_file diamond)) :=
  ⟨rfl, query_once diamond ["A", "B", "C", "B"] diamond_result rfl⟩

theorem SameOutcome.fold_same (f : State → String → Except Abort State)
    (hf : ∀ n s t, SameCore s t → SameOutcome (f s n) (f t n))
    (names : List String) (s t : State) (h : SameCore s t) :
    SameOutcome (names.foldlM f s) (names.foldlM f t) := by
  induction names generalizing s t with
  | nil => exact h
  | cons n ns ih =>
    rw [List.foldlM_cons, List.foldlM_cons]
    have h1 := hf n s t h
    cases hs : f s n with
    | error e =>
      cases ht : f t n with
      | error e2 => rw [hs, ht] at h1; exact h1
      | ok t1 => rw [hs, ht] at h1; exact h1.elim
    | ok s1 =>
      cases ht : f t n with
      | error e2 => rw [hs, ht] at h1; exact h1.elim
      | ok t1 => rw [hs, ht] at h1; exact ih s1 t1 h1

/-- The text on `cerr` has no influence on what `process_module` does to `ko_list`
and the firmware set. -/
theorem process_module_same (env : Env) (fuel : Nat) : ∀ (name : String) (s t : State),
    SameCore s t →
    SameOutcome (process_module env fuel name s) (process_module env fuel name t) := by
  induction fuel with
  | zero => intro name s t _; simp [process_module, SameOutcome]
  | succ fuel ih =>
    intro name s t h
    obtain ⟨h1, h2, h3⟩ := h
    simp only [process_module]
    cases hidx : map_find env.all_ko name with
    | none => exact ⟨h1, h2, h3⟩
    | some pth =>
      simp only
      rw [← h1, ← h2, ← h3]
      cases hk : map_find s.ko_list name with
      | some ki => exact ⟨h1, h2, h3⟩
      | none =>
        simp only
        cases hr : read_ko env.modinfo (path_append env.srcdir pth) s.firmware with
        | error e => simp [SameOutcome]
        | ok r =>
          obtain ⟨deps, fw⟩ := r
          simp only
          exact SameOutcome.fold_same _ (fun n a b hab => ih n a b hab) deps _ _ ⟨rfl, rfl, rfl⟩

theorem process_module_absent (env : Env) (fuel : Nat) (name : String) (s : State)
    (h : map_find env.all_ko name = none) :
    process_module env (fuel + 1) name s =
      .ok { s with cerr := s.cerr ++ [Diag.not_found name] } := by
  simp [process_module, h]

theorem resolve_filter_same (env : Env) (ko_files : List String) (s t : State)
    (h : SameCore s t) :
    SameOutcome
      (ko_files.foldlM (fun a f => process_module env (env.all_ko.length + 1) f a) s)
      ((ko_files.filter (indexed env)).foldlM
        (fun a f => process_module env (env.all_ko.length + 1) f a) t) := by
  induction ko_files generalizing s t with
  | nil => exact h
  | cons n ns ih =>
    by_cases hn : indexed env n = true
    · rw [List.filter_cons_of_pos hn, List.foldlM_cons, List.foldlM_cons]
      have h1 := process_module_same env (env.all_ko.length + 1) n s t h
      cases hs : process_module env (env.all_ko.length + 1) n s with
      | error e =>
        cases ht : process_module env (env.all_ko.length + 1) n t with
        | error e2 => rw [hs, ht] at h1; exact h1
        | ok t1 => rw [hs, ht] at h1; exact h1.elim
      | ok s1 =>
        cases ht : process_module env (env.all_ko.length + 1) n t with
        | error e2 => rw [hs, ht] at h1; exact h1.elim
        | ok t1 => rw [hs, ht] at h1; exact ih s1 t1 h1
    · rw [List.filter_cons_of_neg hn, List.foldlM_cons]
      have hnone : map_find env.all_ko n = none := by
        simpa [indexed] using hn
      rw [process_module_absent env _ n s hnone]
      exact ih _ t ⟨h.1, h.2.1, h.2.2⟩

/-- C4, soft failure on a missing name: when resolution of the requested list
returns, resolution of the list without the names that are absent from the index
returns too, with the same `ko_list` and the same firmware set; every requested name
that is absent from the index has its `not found` line on `cerr` and is no key of
`ko_list`; and every key of `ko_list` is in the index. -/
theorem missing_name_soft (env : Env) (ko_files : List String) (st : State)
    (h : resolve env ko_files = .ok st) :
    (∃ st2, resolve env (ko_files.filter (indexed env)) = .ok st2 ∧
      st2.ko_list = st.ko_list ∧ st2.firmware = st.firmware) ∧
    (∀ n ∈ ko_files, map_find env.all_ko n = none →
      Diag.not_found n ∈ st.cerr ∧ map_find st.ko_list n = none) ∧
    (∀ k ki, map_find st.ko_list k = some ki → indexed env k = true) := by
  have p := resolve_spec env ko_files st h
  refine ⟨?_, ?_, ?_⟩
  · have hs := resolve_filter_same env ko_files {} {} ⟨rfl, rfl, rfl⟩
    unfold resolve at h ⊢
    rw [h] at hs
    cases hr : (ko_files.filter (indexed env)).foldlM
        (fun a f => process_module env (env.all_ko.length + 1) f a) ({} : State) with
    | error e => rw [hr] at hs; exact hs.elim
    | ok st2 => rw [hr] at hs; exact ⟨st2, rfl, hs.1.symm, hs.2.1.symm⟩
  · intro n hn hnone
    have hk : map_find st.ko_list n = none := by
      cases hf : map_find st.ko_list n with
      | none => rfl
      | some ki =>
        obtain ⟨q, hq, _⟩ := p.inv.entry n ki hf
        rw [hnone] at hq; cases hq
    rcases p.done n hn with ⟨ki, hki⟩ | ⟨_, hd⟩
    · rw [hk] at hki; cases hki
    · exact ⟨hd, hk⟩
  · intro k ki hk
    obtain ⟨q, hq, _⟩ := p.inv.entry k ki hk
    simp [indexed, hq]

/-- The diamond, requested together with two names that no file provides, as an
instance of C4. -/
theorem missing_name_soft_witness :
    resolve diamond ["Q", "A", "Z", "B"] =
      .ok { diamond_result with
            cerr := [Diag.not_found "Q", Diag.not_found "X", Diag.not_found "Z"] } ∧
    (∃ st2, resolve diamond (["Q", "A", "Z", "B"].filter (indexed diamond)) = .ok st2 ∧
      st2.ko_list = diamond_result.ko_list ∧ st2.firmware = diamond_result.firmware) ∧
    (∀ n ∈ ["Q", "A", "Z", "B"], map_find diamond.all_ko n = none →
      Diag.not_found n ∈ [Diag.not_found "Q", Diag.not_found "X", Diag.not_found "Z"] ∧
        map_find diamond_result.ko_list n = none) ∧
    (∀ k ki, map_find diamond_result.ko_list k = some ki → indexed diamond k = true) :=
  ⟨rfl, missing_name_soft diamond ["Q", "A", "Z", "B"] _ rfl⟩

/-- The keys of `ko_list` after resolution: the indexed names that are reachable from
an indexed requested name. -/
theorem resolve_keys (env : Env) (ko_files : List String) (st : State)
    (h : resolve env ko_files = .ok st) (k : String) :
    (∃ ki, map_find st.ko_list k = some ki) ↔
      indexed env k = true ∧
        ∃ r ∈ ko_files, indexed env r = true ∧ Reach env r k := by
  have p := resolve_spec env ko_files st h
  constructor
  · rintro ⟨ki, hk⟩
    obtain ⟨q, hq, _⟩ := p.inv.entry k ki hk
    obtain ⟨⟨r, hr, hreach⟩, _⟩ := p.fresh k ki hk (by simp [map_find])
    obtain ⟨q2, hq2⟩ := Reach.indexed_left env hreach q hq
    exact ⟨by simp [indexed, hq], r, hr, by simp [indexed, hq2], hreach⟩
  · rintro ⟨hk, r, hr, hri, hreach⟩
    obtain ⟨q, hq⟩ := Option.isSome_iff_exists.1 hk
    have hrk : ∃ ki, map_find st.ko_list r = some ki := by
      rcases p.done r hr with h1 | ⟨h1, _⟩
      · exact h1
      · simp [indexed, h1] at hri
    exact reach_entry env st p.inv (resolve_closed env ko_files st h) hreach hrk q hq

/-- C6, minimality of the resolved set: after resolution the keys of `ko_list` are
exactly the indexed names that are reachable, by zero or more dependency edges, from
a requested name that is in the index. -/
theorem resolved_set_minimal (env : Env) (ko_files : List String) (st : State)
    (h : resolve env ko_files = .ok st) :
    ∀ k, k ∈ map_keys st.ko_list ↔
      indexed env k = true ∧
        ∃ r ∈ ko_files, indexed env r = true ∧ Reach env r k := by
  intro k
  rw [mem_map_keys]
  exact resolve_keys env ko_files st h k

/-- The diamond as an instance of C6: the module `D`, which nothing requested needs,
is not resolved. -/
theorem resolved_set_minimal_witness :
    resolve diamond ["B"] = .ok diamond_result_b ∧
    ∀ k, k ∈ map_keys diamond_result_b.ko_list ↔
      indexed diamond k = true ∧
        ∃ r ∈ ["B"], indexed diamond r = true ∧ Reach diamond r k :=
  ⟨rfl, resolved_set_minimal diamond ["B"] diamond_result_b rfl⟩

/-- C5, order independence: if two requested lists hold the same names, in any order
and with any repetitions, and resolution of the first returns, then resolution of the
second returns too, and the two results have the same entries in `ko_list` (the same
names, each with the same record, so the same `deps`) and the same firmware names. -/
theorem order_independence (env : Env) (req1 req2 : List String) (st1 : State)
    (h12 : ∀ n ∈ req1, n ∈ req2) (h21 : ∀ n ∈ req2, n ∈ req1)
    (h1 : resolve env req1 = .ok st1) :
    ∃ st2, resolve env req2 = .ok st2 ∧
      (∀ k, k ∈ map_keys st1.ko_list ↔ k ∈ map_keys st2.ko_list) ∧
      (∀ k, map_find st1.ko_list k = map_find st2.ko_list k) ∧
      (∀ x, x ∈ st1.firmware ↔ x ∈ st2.firmware) := by
  have p1 := resolve_spec env req1 st1 h1
  have same_keys : ∀ st2, resolve env req2 = .ok st2 → ∀ k,
      (∃ ki, map_find st1.ko_list k = some ki) ↔ (∃ ki, map_find st2.ko_list k = some ki) := by
    intro st2 h2 k
    rw [resolve_keys env req1 st1 h1 k, resolve_keys env req2 st2 h2 k]
    constructor
    · rintro ⟨hk, r, hr, hri, hreach⟩
      exact ⟨hk, r, h12 r hr, hri, hreach⟩
    · rintro ⟨hk, r, hr, hri, hreach⟩
      exact ⟨hk, r, h21 r hr, hri, hreach⟩
  rcases resolve_total env req2 with ⟨st2, h2⟩ | ⟨_, n, hn, m, pth, hreach, hm, hbad⟩
  · have p2 := resolve_spec env req2 st2 h2
    have hfind : ∀ k, map_find st1.ko_list k = map_find st2.ko_list k := by
      intro k
      cases hk1 : map_find st1.ko_list k with
      | some ki1 =>
        obtain ⟨ki2, hk2⟩ := (same_keys st2 h2 k).1 ⟨ki1, hk1⟩
        obtain ⟨q1, hq1, e1, _⟩ := p1.inv.entry k ki1 hk1
        obtain ⟨q2, hq2, e2, _⟩ := p2.inv.entry k ki2 hk2
        rw [hq1] at hq2
        cases hq2
        rw [hk2, e1, e2]
      | none =>
        cases hk2 : map_find st2.ko_list k with
        | none => rfl
        | some ki2 =>
          obtain ⟨ki1, hk⟩ := (same_keys st2 h2 k).2 ⟨ki2, hk2⟩
          rw [hk1] at hk; cases hk
    refine ⟨st2, h2, ?_, hfind, ?_⟩
    · intro k
      rw [mem_map_keys, mem_map_keys]
      exact same_keys st2 h2 k
    · intro x
      rw [p1.inv.fw x, p2.inv.fw x]
      simp only [hfind]
  · exfalso
    obtain ⟨q, hq⟩ := Reach.indexed_left env hreach pth hm
    have hn1 : ∃ ki, map_find st1.ko_list n = some ki := by
      rcases p1.done n (h21 n hn) with h | ⟨h, _⟩
      · exact h
      · rw [hq] at h; cases h
    obtain ⟨km, hkm⟩ :=
      reach_entry env st1 p1.inv (resolve_closed env req1 st1 h1) hreach hn1 pth hm
    obtain ⟨q2, hq2, _, hgood⟩ := p1.inv.entry m km hkm
    rw [hm] at hq2
    cases hq2
    rw [hbad] at hgood
    cases hgood

/-- The diamond, requested in two orders and with a repetition, as an instance of
C5. -/
theorem order_independence_witness :
    (∀ n ∈ ["A", "B"], n ∈ ["B", "A", "B"]) ∧ (∀ n ∈ ["B", "A", "B"], n ∈ ["A", "B"]) ∧
    resolve diamond ["A", "B"] = .ok diamond_result ∧
    ∃ st2, resolve diamond ["B", "A", "B"] = .ok st2 ∧
      (∀ k, k ∈ map_keys diamond_result.ko_list ↔ k ∈ map_keys st2.ko_list) ∧
      (∀ k, map_find diamond_result.ko_list k = map_find st2.ko_list k) ∧
      (∀ x, x ∈ diamond_result.firmware ↔ x ∈ st2.firmware) :=
  ⟨by decide, by decide, rfl,
    order_independence diamond ["A", "B"] ["B", "A", "B"] diamond_result
      (by decide) (by decide) rfl⟩

/-! ## The attribution pass -/

theorem map_index_put (m : List (String × Ko_info)) (k : String) (v : Ko_info) (k' : String) :
    map_index (map_put m k v) k' = if k' = k then v else map_index m k' := by
  simp only [map_index, map_find_put]
  split <;> rfl

theorem reach_in_congr {kl1 kl2 : List (String × Ko_info)}
    (h : ∀ k, (map_index kl2 k).deps = (map_index kl1 k).deps) :
    ∀ n a b, reach_in kl2 n a b ↔ reach_in kl1 n a b := by
  intro n
  induction n with
  | zero => intro a b; rfl
  | succ n ih =>
    intro a b
    simp only [reach_in, ko_dep, h, ih]

theorem Marks.same {st1 st2 : State} (h1 : st2.ko_list = st1.ko_list)
    (h2 : st2.firmware = st1.firmware) (h3 : st2.read_ko_calls = st1.read_ko_calls)
    (h4 : ∀ d, d ∈ st1.cerr → d ∈ st2.cerr) :
    Marks (fun _ _ => False) (fun _ => False) st1 st2 := by
  refine ⟨?_, ?_, ?_, ?_, ?_, h2, h3, h4⟩ <;> simp [h1]

theorem Marks.comp {P1 P2 : String → String → Prop} {U1 U2 : String → Prop} {a b c : State}
    (h1 : Marks P1 U1 a b) (h2 : Marks P2 U2 b c) :
    Marks (fun x k => P1 x k ∨ P2 x k) (fun k => U1 k ∨ U2 k) a c := by
  refine ⟨?_, ?_, ?_, ?_, ?_, ?_, ?_, ?_⟩
  · intro k; rw [h2.deps, h1.deps]
  · intro k; rw [h2.path, h1.path]
  · intro k; rw [h2.su, h1.su, or_assoc]
  · intro k x; rw [h2.pulled_by, h1.pulled_by, or_assoc]
  · intro k
    rw [h2.keys, h1.keys]
    constructor
    · rintro ((h | h | ⟨x, h⟩) | h | ⟨x, h⟩)
      · exact Or.inl h
      · exact Or.inr (Or.inl (Or.inl h))
      · exact Or.inr (Or.inr ⟨x, Or.inl h⟩)
      · exact Or.inr (Or.inl (Or.inr h))
      · exact Or.inr (Or.inr ⟨x, Or.inr h⟩)
    · rintro (h | (h | h) | ⟨x, h | h⟩)
      · exact Or.inl (Or.inl h)
      · exact Or.inl (Or.inr (Or.inl h))
      · exact Or.inr (Or.inl h)
      · exact Or.inl (Or.inr (Or.inr ⟨x, h⟩))
      · exact Or.inr (Or.inr ⟨x, h⟩)
  · rw [h2.firmware, h1.firmware]
  · rw [h2.calls, h1.calls]
  · intro d hd; exact h2.cerr d (h1.cerr d hd)

theorem Marks.congr {P1 P2 : String → String → Prop} {U1 U2 : String → Prop} {a b : State}
    (h : Marks P1 U1 a b) (hP : ∀ x k, P1 x k ↔ P2 x k) (hU : ∀ k, U1 k ↔ U2 k) :
    Marks P2 U2 a b := by
  have e1 : P1 = P2 := funext fun x => funext fun k => propext (hP x k)
  have e2 : U1 = U2 := funext fun k => propext (hU k)
  rw [← e1, ← e2]
  exact h

/-- The first two statements of `mark_dep_req`: the entry of `module` is found or made
and `user_module` is put into its `pulled_by` set. -/
theorem Marks.touch (st : State) (module user_module : String) :
    Marks (fun x k => x = user_module ∧ k = module) (fun _ => False) st
      ⟨map_put st.ko_list module
        ⟨(map_index st.ko_list module).deps,
          set_insert (map_index st.ko_list module).pulled_by user_module,
          (map_index st.ko_list module).path, (map_index st.ko_list module).su⟩,
        st.firmware, st.cerr, st.read_ko_calls⟩ := by
  refine ⟨?_, ?_, ?_, ?_, ?_, rfl, rfl, fun _ h => h⟩
  · intro k
    simp only [map_index_put]
    split
    · rename_i e; rw [e]
    · rfl
  · intro k
    simp only [map_index_put]
    split
    · rename_i e; rw [e]
    · rfl
  · intro k
    simp only [map_index_put, or_false]
    split
    · rename_i e; rw [e]
    · rfl
  · intro k x
    simp only [map_index_put]
    split
    · rename_i e
      subst e
      simp only [mem_set_insert, and_true]
      exact or_comm
    · rename_i e
      simp [e]
  · intro k
    simp only [map_find_put, false_or]
    by_cases e : k = module
    · simp [e]
    · simp [e]

/-- The first two statements of `mark_dep`: the entry of `module` is found or made and
its flag `su` is set. -/
theorem Marks.select (st : State) (module : String) :
    Marks (fun _ _ => False) (fun k => k = module) st
      ⟨map_put st.ko_list module
        ⟨(map_index st.ko_list module).deps, (map_index st.ko_list module).pulled_by,
          (map_index st.ko_list module).path, true⟩,
        st.firmware, st.cerr, st.read_ko_calls⟩ := by
  refine ⟨?_, ?_, ?_, ?_, ?_, rfl, rfl, fun _ h => h⟩
  · intro k
    simp only [map_index_put]
    split
    · rename_i e; rw [e]
    · rfl
  · intro k
    simp only [map_index_put]
    split
    · rename_i e; rw [e]
    · rfl
  · intro k
    simp only [map_index_put]
    split
    · rename_i e; simp [e]
    · rename_i e; simp [e]
  · intro k x
    simp only [map_index_put, or_false]
    split
    · rename_i e; rw [e]
    · rfl
  · intro k
    simp only [map_find_put]
    by_cases e : k = module
    · simp [e]
    · simp [e]

/-- A loop that marks from each element of a list in turn. -/
theorem Marks.fold (F : String → State → State)
    (P : List (String × Ko_info) → String → String → String → Prop) (U : String → String → Prop)
    (hP : ∀ kl1 kl2, (∀ k, (map_index kl2 k).deps = (map_index kl1 k).deps) →
      ∀ d x k, P kl2 d x k ↔ P kl1 d x k)
    (hF : ∀ d s, Marks (P s.ko_list d) (U d) s (F d s)) :
    ∀ (ds : List String) (st : State),
      Marks (fun x k => ∃ d ∈ ds, P st.ko_list d x k) (fun k => ∃ d ∈ ds, U d k) st
        (ds.foldl (fun s n => F n s) st) := by
  intro ds
  induction ds with
  | nil =>
    intro st
    exact (Marks.same rfl rfl rfl (fun _ h => h)).congr (by simp) (by simp)
  | cons d ds ih =>
    intro st
    rw [List.foldl_cons]
    have h1 := hF d st
    have h2 := ih (F d st)
    refine (h1.comp h2).congr ?_ ?_
    · intro x k
      simp only [List.mem_cons, exists_eq_or_imp, hP st.ko_list (F d st).ko_list h1.deps]
    · intro k
      simp only [List.mem_cons, exists_eq_or_imp]

/-- The effect of `mark_dep_req`: `user_module` is put into the `pulled_by` set of
exactly the modules that a path from `module` reaches before the budget or the depth
guard ends it. -/
theorem mark_dep_req_fuel_spec (user_module : String) (fuel : Nat) :
    ∀ (module : String) (rec_lev : Nat) (st : State),
      Marks
        (fun x k => x = user_module ∧
          ∃ n, n < fuel ∧ rec_lev + n ≤ 1024 ∧ reach_in st.ko_list n module k)
        (fun _ => False) st (mark_dep_req_fuel fuel module user_module rec_lev st) := by
  induction fuel with
  | zero =>
    intro module rec_lev st
    unfold mark_dep_req_fuel
    split
    · have hs : Marks (fun _ _ => False) (fun _ => False) st
          { st with cerr := st.cerr ++ [Diag.too_deep] } :=
        Marks.same rfl rfl rfl (fun d h => by simp [h])
      refine hs.congr ?_ (fun _ => Iff.rfl)
      intro x k
      simp
    · have hs : Marks (fun _ _ => False) (fun _ => False) st st :=
        Marks.same rfl rfl rfl (fun _ h => h)
      refine hs.congr ?_ (fun _ => Iff.rfl)
      intro x k
      simp
  | succ fuel ih =>
    intro module rec_lev st
    unfold mark_dep_req_fuel
    split
    · rename_i hdeep
      have hs : Marks (fun _ _ => False) (fun _ => False) st
          { st with cerr := st.cerr ++ [Diag.too_deep] } :=
        Marks.same rfl rfl rfl (fun d h => by simp [h])
      refine hs.congr ?_ (fun _ => Iff.rfl)
      intro x k
      simp only [false_iff, not_and, not_exists]
      intro _ n _ h
      omega
    · rename_i hlev
      simp only
      have h1 := Marks.touch st module user_module
      have h2 := Marks.fold (fun n s => mark_dep_req_fuel fuel n user_module (rec_lev + 1) s)
        (fun kl d x k => x = user_module ∧
          ∃ n, n < fuel ∧ rec_lev + 1 + n ≤ 1024 ∧ reach_in kl n d k)
        (fun _ _ => False)
        (fun kl1 kl2 hk d x k => by simp only [reach_in_congr hk])
        (fun d s => ih d (rec_lev + 1) s)
        (map_index st.ko_list module).deps
        ⟨map_put st.ko_list module
          ⟨(map_index st.ko_list module).deps,
            set_insert (map_index st.ko_list module).pulled_by user_module,
            (map_index st.ko_list module).path, (map_index st.ko_list module).su⟩,
          st.firmware, st.cerr, st.read_ko_calls⟩
      refine (h1.comp h2).congr ?_ (by simp)
      intro x k
      simp only [reach_in_congr h1.deps]
      constructor
      · rintro (⟨hx, hk⟩ | ⟨d, hd, hx, n, hn, hl, hr⟩)
        · exact ⟨hx, 0, by omega, by omega, hk.symm⟩
        · exact ⟨hx, n + 1, by omega, by omega, d, hd, hr⟩
      · rintro ⟨hx, n, hn, hl, hr⟩
        cases n with
        | zero => exact Or.inl ⟨hx, hr.symm⟩
        | succ n =>
          obtain ⟨d, hd, hr⟩ := hr
          exact Or.inr ⟨d, hd, hx, n, by omega, by omega, hr⟩

/-- One call of the source function `mark_dep_req` in terms of its nested calls: the
budget of the embedding plays no part. -/
theorem mark_dep_req_unfold (module user_module : String) (rec_lev : Nat) (st : State) :
    mark_dep_req module user_module rec_lev st =
      if rec_lev > 1024 then { st with cerr := st.cerr ++ [Diag.too_deep] }
      else
        (map_index st.ko_list module).deps.foldl
          (fun s n => mark_dep_req n user_module (rec_lev + 1) s)
          ⟨map_put st.ko_list module
            ⟨(map_index st.ko_list module).deps,
              set_insert (map_index st.ko_list module).pulled_by user_module,
              (map_index st.ko_list module).path, (map_index st.ko_list module).su⟩,
            st.firmware, st.cerr, st.read_ko_calls⟩ := by
  unfold mark_dep_req
  by_cases h : rec_lev > 1024
  · unfold mark_dep_req_fuel
    simp [h]
  · have e : 1026 - rec_lev = (1026 - (rec_lev + 1)) + 1 := by omega
    rw [e]
    conv => lhs; unfold mark_dep_req_fuel

/-- The effect of `mark_dep`: `su` is set for `module`, and `module` is put into the
`pulled_by` set of exactly the modules that a path of 1 to 1025 edges from it
reaches. -/
theorem mark_dep_spec (module : String) (st : State) :
    Marks
      (fun x k => x = module ∧ ∃ n, 1 ≤ n ∧ n ≤ 1025 ∧ reach_in st.ko_list n module k)
      (fun k => k = module) st (mark_dep module st) := by
  unfold mark_dep
  simp only
  have h1 := Marks.select st module
  have h2 := Marks.fold (fun n s => mark_dep_req n module 0 s)
    (fun kl d x k => x = module ∧ ∃ n, n < 1026 ∧ 0 + n ≤ 1024 ∧ reach_in kl n d k)
    (fun _ _ => False)
    (fun kl1 kl2 hk d x k => by simp only [reach_in_congr hk])
    (fun d s => mark_dep_req_fuel_spec module 1026 d 0 s)
    (map_index st.ko_list module).deps
    ⟨map_put st.ko_list module
      ⟨(map_index st.ko_list module).deps, (map_index st.ko_list module).pulled_by,
        (map_index st.ko_list module).path, true⟩,
      st.firmware, st.cerr, st.read_ko_calls⟩
  refine (h1.comp h2).congr ?_ (by simp)
  intro x k
  simp only [reach_in_congr h1.deps, false_or]
  constructor
  · rintro ⟨d, hd, hx, n, hn, hl, hr⟩
    exact ⟨hx, n + 1, by omega, by omega, d, hd, hr⟩
  · rintro ⟨hx, n, h1, hl, hr⟩
    cases n with
    | zero => omega
    | succ n =>
      obtain ⟨d, hd, hr⟩ := hr
      exact ⟨d, hd, hx, n, by omega, by omega, hr⟩

/-- The effect of the attribution pass of `main`. -/
theorem mark_all_spec (ko_files : List String) (st : State) :
    Marks
      (fun x k => x ∈ ko_files ∧ ∃ n, 1 ≤ n ∧ n ≤ 1025 ∧ reach_in st.ko_list n x k)
      (fun k => k ∈ ko_files) st (mark_all ko_files st) := by
  have h := Marks.fold (fun f s => mark_dep f s)
    (fun kl d x k => x = d ∧ ∃ n, 1 ≤ n ∧ n ≤ 1025 ∧ reach_in kl n d k)
    (fun d k => k = d)
    (fun kl1 kl2 hk d x k => by simp only [reach_in_congr hk])
    (fun d s => (mark_dep_spec d s).congr
      (fun x k => by
        constructor
        · rintro ⟨hx, h⟩; subst hx; exact ⟨rfl, h⟩
        · rintro ⟨hx, h⟩; subst hx; exact ⟨rfl, h⟩)
      (fun k => Iff.rfl))
    ko_files st
  refine h.congr ?_ ?_
  · intro x k
    constructor
    · rintro ⟨d, hd, hx, h⟩; subst hx; exact ⟨hd, h⟩
    · rintro ⟨hx, h⟩; exact ⟨x, hx, rfl, h⟩
  · intro k
    constructor
    · rintro ⟨d, hd, hk⟩; subst hk; exact hd
    · intro hk; exact ⟨k, hk, rfl⟩

/-! ## Reading one `depends:` line -/

theorem split_sv_one (name : List Char) (hne : name ≠ []) (hc : ∀ c ∈ name, c ≠ ',') :
    split_sv (String.mk name) = [String.mk name] := by
  have h1 : name.takeWhile (fun c => c != ',') = name :=
    List.takeWhile_eq_self_iff.2 (fun c hc' => by simpa using hc c hc')
  have h2 : name.dropWhile (fun c => c != ',') = [] :=
    List.dropWhile_eq_nil_iff.2 (fun c hc' => by simpa using hc c hc')
  simp only [split_sv, split_sv_loop, hne, if_false, h1, h2]

theorem getlines_one (line : List Char) (hc : ∀ c ∈ line, c ≠ '\n') :
    getlines (String.mk (line ++ ['\n'])) = [line] := by
  have hp : ∀ c ∈ line, (fun c => c != '\n') c = true := fun c hc' => by simpa using hc c hc'
  have h1 : (line ++ ['\n']).takeWhile (fun c => c != '\n') = line := by
    rw [List.takeWhile_append_of_pos hp]
    simp [List.takeWhile]
  have h2 : (line ++ ['\n']).dropWhile (fun c => c != '\n') = ['\n'] := by
    rw [List.dropWhile_append_of_pos hp]
    simp [List.dropWhile]
  have h3 : line ++ ['\n'] ≠ [] := by simp
  simp only [getlines, getlines_loop, h3, if_false, h1, h2]
  cases (line ++ ['\n']).length <;> simp [getlines_loop]

theorem name_char_not_space (c : Char) (h : name_char c = true) : isspace c = false := by
  simp only [name_char, Bool.and_eq_true, Bool.not_eq_true'] at h
  exact h.1

theorem name_char_not_comma (c : Char) (h : name_char c = true) : c ≠ ',' := by
  simp only [name_char, Bool.and_eq_true, bne_iff_ne] at h
  exact h.2

theorem name_char_not_newline (c : Char) (h : name_char c = true) : c ≠ '\n' := by
  rintro rfl
  revert h
  decide

/-- The words that `operator>>` extracts from a line `depends:        <name>`. -/
theorem read_word_depends (name : List Char) (hne : name ≠ [])
    (hc : ∀ c ∈ name, name_char c = true) :
    (read_word ("depends:        ".data ++ name)).1 = "depends:" ∧
    (read_word (read_word ("depends:        ".data ++ name)).2).1 = String.mk name := by
  have hs : ∀ c ∈ name, isspace c = false := fun c h => name_char_not_space c (hc c h)
  have h1 : name.takeWhile (fun c => !isspace c) = name :=
    List.takeWhile_eq_self_iff.2 (fun c h => by simp [hs c h])
  have h2 : name.dropWhile isspace = name := by
    cases name with
    | nil => rfl
    | cons a l => simp [List.dropWhile, hs a (List.mem_cons_self _ _)]
  have e : "depends:        ".data ++ name =
      'd' :: 'e' :: 'p' :: 'e' :: 'n' :: 'd' :: 's' :: ':' :: ' ' :: ' ' :: ' ' :: ' ' :: ' ' ::
        ' ' :: ' ' :: ' ' :: name := rfl
  rw [e]
  constructor
  · simp [read_word, List.dropWhile, List.takeWhile, isspace]
  · simp [read_word, List.dropWhile, List.takeWhile, isspace]
    rw [h2]
    congr 1
    apply List.takeWhile_eq_self_iff.2
    intro c h
    have := hs c h
    simpa [isspace] using this

/-- What `read_ko` makes of an output that is the one line `depends:        <name>`. -/
theorem read_ko_scan_depends (name : List Char) (hne : name ≠ [])
    (hc : ∀ c ∈ name, name_char c = true) (fw : List String) :
    read_ko_scan (String.mk ("depends:        ".data ++ name ++ ['\n'])) fw =
      ⟨[String.mk name], fw, true⟩ := by
  have hl : ∀ c ∈ "depends:        ".data ++ name, c ≠ '\n' := by
    intro c h
    rcases List.mem_append.1 h with h | h
    · have hd : ∀ c ∈ "depends:        ".data, c ≠ '\n' := by decide
      exact hd c h
    · exact name_char_not_newline c (hc c h)
  obtain ⟨w1, w2⟩ := read_word_depends name hne hc
  simp only [read_ko_scan, getlines_one _ hl, List.foldl_cons, List.foldl_nil, read_ko_line,
    w1, w2, if_true, List.nil_append,
    split_sv_one name hne (fun c h => name_char_not_comma c (hc c h))]

/-! ## A chain deeper than the guard of `mark_dep_req` -/

theorem map_find_of_mem {β : Type} (m : List (String × β)) (h : (map_keys m).Nodup)
    (k : String) (v : β) (hm : (k, v) ∈ m) : map_find m k = some v := by
  induction m with
  | nil => cases hm
  | cons e rest ih =>
    obtain ⟨a, w⟩ := e
    simp only [map_keys, List.map_cons, List.nodup_cons] at h
    simp only [map_find]
    rcases List.mem_cons.1 hm with e | hm
    · cases e; simp
    · have hk : k ∈ rest.map Prod.fst := List.mem_map.2 ⟨(k, v), hm, rfl⟩
      have : k ≠ a := by rintro rfl; exact h.1 hk
      simp only [this, if_false]
      exact ih h.2 hm

theorem deep_name_chars (i : Nat) : ∀ c ∈ (deep_name i).data, name_char c = true := by
  intro c h
  simp only [deep_name, List.mem_cons, List.mem_append, List.mem_replicate] at h
  rcases h with rfl | ⟨_, rfl⟩ | ⟨_, rfl⟩ <;> decide

theorem deep_num_name (i : Nat) : deep_num (deep_name i) = i := by
  simp only [deep_num, deep_name, List.count_cons, List.count_append, List.count_replicate]
  simp
  omega

theorem deep_name_inj (i j : Nat) (h : deep_name i = deep_name j) : i = j := by
  rw [← deep_num_name i, ← deep_num_name j, h]

theorem deep_path (i : Nat) :
    path_append "/c" (deep_name i ++ ".ko") =
      String.mk ("/c/".data ++ (deep_name i).data ++ ".ko".data) := by
  have e : (deep_name i ++ ".ko").data =
      'm' :: (List.replicate (i / 32) 'x' ++ List.replicate (i % 32) 'y' ++ ".ko".data) := by
    simp [deep_name, String.data_append]
  unfold path_append
  rw [e]
  simp only
  have h1 : ¬ ("/c".data = []) := by decide
  have h2 : ¬ ("/c".data.getLast? = some '/') := by decide
  rw [if_neg h1, if_neg h2]
  apply String.ext
  simp [String.data_append]

theorem deep_num_path (i : Nat) : deep_num (path_append "/c" (deep_name i ++ ".ko")) = i := by
  rw [deep_path]
  have h := deep_num_name i
  simp only [deep_num, List.count_append] at h ⊢
  have e1 : "/c/".data.count 'x' = 0 := by decide
  have e2 : "/c/".data.count 'y' = 0 := by decide
  have e3 : ".ko".data.count 'x' = 0 := by decide
  have e4 : ".ko".data.count 'y' = 0 := by decide
  rw [e1, e2, e3, e4]
  omega

theorem deep_declared (i : Nat) :
    declared_deps deep (path_append "/c" (deep_name i ++ ".ko")) =
        (if i < 1026 then [deep_name (i + 1)] else []) ∧
      depends_found deep (path_append "/c" (deep_name i ++ ".ko")) = true := by
  have hm : deep.modinfo = deep_modinfo := rfl
  simp only [declared_deps, depends_found, hm, deep_modinfo, deep_num_path]
  by_cases h : i < 1026
  · simp only [h, if_true]
    rw [read_ko_scan_depends _ (by simp [deep_name]) (deep_name_chars (i + 1))]
    simp
  · simp only [h, if_false]
    constructor <;> decide

theorem deep_find (i : Nat) (h : i < 1027) :
    map_find deep.all_ko (deep_name i) = some (deep_name i ++ ".ko") := by
  have e : deep.all_ko = (List.range 1027).map (fun i => (deep_name i, deep_name i ++ ".ko")) :=
    by simp only [deep, deep_index]
  rw [e]
  apply map_find_of_mem
  · simp only [map_keys, List.map_map]
    refine List.Nodup.map_on ?_ (List.nodup_range _)
    intro a _ b _ hab
    exact deep_name_inj a b hab
  · exact List.mem_map.2 ⟨i, List.mem_range.2 h, by simp only⟩

theorem deep_module_file (i : Nat) (h : i < 1027) :
    module_file deep (deep_name i) = path_append "/c" (deep_name i ++ ".ko") := by
  simp only [module_file, deep_find i h, Option.getD_some]
  rfl

theorem deep_not_malformed (n : String) : ¬ Malformed deep n := by
  rintro ⟨m, pth, _, hm, hbad⟩
  have hmem := map_find_mem _ _ _ hm
  have e : deep.all_ko = (List.range 1027).map (fun i => (deep_name i, deep_name i ++ ".ko")) :=
    by simp only [deep, deep_index]
  rw [e] at hmem
  obtain ⟨i, hi, hp⟩ := List.mem_map.1 hmem
  simp only [Prod.mk.injEq] at hp
  have hgood := (deep_declared i).2
  rw [hp.2] at hgood
  have : deep.srcdir = "/c" := rfl
  rw [this, hgood] at hbad
  cases hbad

theorem deep_dep (i : Nat) (h : i < 1026) : Dep deep (deep_name i) (deep_name (i + 1)) := by
  refine ⟨_, deep_find i (by omega), ?_⟩
  have : deep.srcdir = "/c" := rfl
  rw [this, (deep_declared i).1]
  simp [h]

theorem deep_reach (i : Nat) (h : i < 1027) : Reach deep (deep_name 0) (deep_name i) := by
  induction i with
  | zero => exact Relation.ReflTransGen.refl
  | succ i ih => exact Relation.ReflTransGen.tail (ih (by omega)) (deep_dep i (by omega))

/-- The entries of the resolved deep chain. -/
theorem deep_entry (st : State) (h : resolve deep [deep_name 0] = .ok st) (i : Nat)
    (hi : i < 1027) :
    map_find st.ko_list (deep_name i) =
      some ⟨if i < 1026 then [deep_name (i + 1)] else [], [], some (deep_name i ++ ".ko"), false⟩ := by
  have p := resolve_spec deep _ st h
  have hk : ∃ ki, map_find st.ko_list (deep_name i) = some ki := by
    rw [resolve_keys deep _ st h]
    refine ⟨by simp [indexed, deep_find i hi], deep_name 0, List.mem_singleton.2 rfl,
      by simp [indexed, deep_find 0 (by omega)], deep_reach i hi⟩
  obtain ⟨ki, hki⟩ := hk
  obtain ⟨pth, hp, e, _⟩ := p.inv.entry _ ki hki
  rw [deep_find i hi] at hp
  cases hp
  have : deep.srcdir = "/c" := rfl
  rw [hki, e, this, (deep_declared i).1]

theorem deep_reach_in (kl : List (String × Ko_info))
    (hkl : ∀ i, i < 1026 → (map_index kl (deep_name i)).deps = [deep_name (i + 1)]) :
    ∀ (n i : Nat), i + n ≤ 1026 → ∀ M, reach_in kl n (deep_name i) M ↔ M = deep_name (i + n) := by
  intro n
  induction n with
  | zero => intro i _ M; simp only [reach_in, Nat.add_zero]; exact eq_comm
  | succ n ih =>
    intro i hi M
    simp only [reach_in, ko_dep, hkl i (by omega), List.mem_singleton]
    constructor
    · rintro ⟨c, hc, hr⟩
      subst hc
      rw [(ih (i + 1) (by omega) M).1 hr]
      congr 1
      omega
    · intro hM
      refine ⟨_, rfl, (ih (i + 1) (by omega) M).2 ?_⟩
      rw [hM]
      congr 1
      omega

theorem reach_in_trans_gen (kl : List (String × Ko_info)) :
    ∀ (n : Nat) (a b : String), reach_in kl (n + 1) a b → Relation.TransGen (ko_dep kl) a b := by
  intro n
  induction n with
  | zero =>
    rintro a b ⟨c, hc, hr⟩
    have e : c = b := hr
    subst e
    exact Relation.TransGen.single hc
  | succ n ih =>
    rintro a b ⟨c, hc, hr⟩
    exact Relation.TransGen.head hc (ih c b hr)

theorem trans_gen_reach_in (kl : List (String × Ko_info)) {a b : String}
    (h : Relation.TransGen (ko_dep kl) a b) : ∃ n, reach_in kl (n + 1) a b := by
  induction h using Relation.TransGen.head_induction_on with
  | base hab => exact ⟨0, _, hab, rfl⟩
  | ih hac _ ih =>
    obtain ⟨n, hn⟩ := ih
    exact ⟨n + 1, _, hac, hn⟩

/-! ## Claims on the attribution pass -/

/-- C8 as stated fails on the deep chain: after resolving and marking the requested
module number 0 (named `m`), the module number 1026 is an entry of `ko_list` and is
reachable from `m` by dependency edges, but `m` is not in its `pulled_by` set, because
the only path has 1026 edges and `mark_dep_req` gives up beyond `rec_lev` 1024. -/
theorem attribution_completeness_counterexample :
    ∃ st, resolve deep ["m"] = .ok st ∧
      Relation.TransGen (ko_dep st.ko_list) "m" "mxxxxxxxxxxxxxxxxxxxxxxxxxxxxxxxxyy" ∧
      ∃ ki, map_find (mark_all ["m"] st).ko_list "mxxxxxxxxxxxxxxxxxxxxxxxxxxxxxxxxyy" = some ki ∧
        "m" ∉ ki.pulled_by := by
  have e0 : deep_name 0 = "m" := by decide
  have e1 : deep_name 1026 = "mxxxxxxxxxxxxxxxxxxxxxxxxxxxxxxxxyy" := by decide
  rw [← e0, ← e1]
  rcases resolve_total deep [deep_name 0] with ⟨st, h⟩ | ⟨_, n, _, hbad⟩
  · refine ⟨st, h, ?_, ?_⟩
    · have hkl : ∀ i, i < 1026 → (map_index st.ko_list (deep_name i)).deps =
          [deep_name (i + 1)] := by
        intro i hi
        simp [map_index, deep_entry st h i (by omega), hi]
      apply reach_in_trans_gen st.ko_list 1025
      have := (deep_reach_in st.ko_list hkl 1026 0 (by omega) (deep_name 1026)).2
      exact this (by simp)
    · have hkl : ∀ i, i < 1026 → (map_index st.ko_list (deep_name i)).deps =
          [deep_name (i + 1)] := by
        intro i hi
        simp [map_index, deep_entry st h i (by omega), hi]
      have m := mark_all_spec [deep_name 0] st
      obtain ⟨ki, hki⟩ := (m.keys (deep_name 1026)).2
        (Or.inl ⟨_, deep_entry st h 1026 (by omega)⟩)
      refine ⟨ki, hki, ?_⟩
      intro hmem
      have hidx : map_index (mark_all [deep_name 0] st).ko_list (deep_name 1026) = ki := by
        simp [map_index, hki]
      rw [← hidx, m.pulled_by] at hmem
      rcases hmem with hmem | ⟨_, n, h1, h2, hr⟩
      · simp [map_index, deep_entry st h 1026 (by omega)] at hmem
      · have := (deep_reach_in st.ko_list hkl n 0 (by omega) (deep_name 1026)).1 hr
        have := deep_name_inj 1026 (0 + n) this
        omega
  · exact absurd hbad (deep_not_malformed n)

/-- C8 as amended, attribution completeness up to the depth guard: after `mark_dep` has
been run for every requested name, every module `M` that a path of 1 to 1025
dependency edges reaches from a requested module `R` is an entry of `ko_list` and has
`R` in its `pulled_by` set. -/
theorem attribution_completeness (ko_files : List String) (st : State) (R M : String)
    (n : Nat) (hR : R ∈ ko_files) (h1 : 1 ≤ n) (h2 : n ≤ 1025)
    (hreach : reach_in st.ko_list n R M) :
    ∃ ki, map_find (mark_all ko_files st).ko_list M = some ki ∧ R ∈ ki.pulled_by := by
  have m := mark_all_spec ko_files st
  have hp : R ∈ (map_index (mark_all ko_files st).ko_list M).pulled_by :=
    (m.pulled_by M R).2 (Or.inr ⟨hR, n, h1, h2, hreach⟩)
  obtain ⟨ki, hki⟩ := (m.keys M).2 (Or.inr (Or.inr ⟨R, hR, n, h1, h2, hreach⟩))
  refine ⟨ki, hki, ?_⟩
  simpa [map_index, hki] using hp

/-- Scenario 4 as an instance of C8: `B` is in the `pulled_by` set of `C`. -/
theorem attribution_completeness_witness :
    "B" ∈ ["A", "B"] ∧ 1 ≤ 1 ∧ 1 ≤ 1025 ∧ reach_in scenario4_result.ko_list 1 "B" "C" ∧
    ∃ ki, map_find (mark_all ["A", "B"] scenario4_result).ko_list "C" = some ki ∧
      "B" ∈ ki.pulled_by :=
  ⟨by decide, by decide, by decide, by decide,
    attribution_completeness ["A", "B"] scenario4_result "B" "C" 1 (by decide) (by decide)
      (by decide) (by decide)⟩

/-- Scenario 4: after the attribution pass the `pulled_by` set of `C` is `{A, B}`. -/
theorem scenario4_pulled_by :
    resolve scenario4 ["A", "B"] = .ok scenario4_result ∧
    map_find (mark_all ["A", "B"] scenario4_result).ko_list "C" =
      some ⟨[], ["A", "B"], some "c.ko", false⟩ :=
  ⟨rfl, by decide⟩

/-- C10, attribution soundness: before the attribution pass every `pulled_by` set of
the resolved result is empty; after it, every name in the `pulled_by` set of an entry
`M` is a requested name from which a path of at least one dependency edge leads to
`M`; and an entry that no requested module reaches that way has an empty `pulled_by`
set. -/
theorem attribution_soundness (env : Env) (ko_files : List String) (st : State)
    (h : resolve env ko_files = .ok st) :
    (∀ k ki, map_find st.ko_list k = some ki → ki.pulled_by = []) ∧
    (∀ M ki r, map_find (mark_all ko_files st).ko_list M = some ki → r ∈ ki.pulled_by →
      r ∈ ko_files ∧ Relation.TransGen (ko_dep st.ko_list) r M) ∧
    (∀ M ki, map_find (mark_all ko_files st).ko_list M = some ki →
      (¬ ∃ r ∈ ko_files, Relation.TransGen (ko_dep st.ko_list) r M) → ki.pulled_by = []) := by
  have p := resolve_spec env ko_files st h
  have m := mark_all_spec ko_files st
  have hempty : ∀ k, (map_index st.ko_list k).pulled_by = [] := by
    intro k
    cases hk : map_find st.ko_list k with
    | none => simp [map_index, hk]
    | some ki =>
      obtain ⟨pth, _, e, _⟩ := p.inv.entry k ki hk
      simp [map_index, hk, e]
  have hsound : ∀ M ki r, map_find (mark_all ko_files st).ko_list M = some ki →
      r ∈ ki.pulled_by → r ∈ ko_files ∧ Relation.TransGen (ko_dep st.ko_list) r M := by
    intro M ki r hki hr
    have hidx : map_index (mark_all ko_files st).ko_list M = ki := by
      simp [map_index, hki]
    rw [← hidx, m.pulled_by, hempty] at hr
    rcases hr with hr | ⟨hreq, n, h1, _, hreach⟩
    · cases hr
    · obtain ⟨k, rfl⟩ : ∃ k, n = k + 1 := ⟨n - 1, by omega⟩
      exact ⟨hreq, reach_in_trans_gen _ k r M hreach⟩
  refine ⟨?_, hsound, ?_⟩
  · intro k ki hk
    have := hempty k
    simpa [map_index, hk] using this
  · intro M ki hki hno
    cases hpb : ki.pulled_by with
    | nil => rfl
    | cons r rs =>
      exfalso
      obtain ⟨hreq, ht⟩ := hsound M ki r hki (by rw [hpb]; exact List.mem_cons_self _ _)
      exact hno ⟨r, hreq, ht⟩

/-- Scenario 4 as an instance of C10. -/
theorem attribution_soundness_witness :
    resolve scenario4 ["A", "B"] = .ok scenario4_result ∧
    (∀ k ki, map_find scenario4_result.ko_list k = some ki → ki.pulled_by = []) ∧
    (∀ M ki r, map_find (mark_all ["A", "B"] scenario4_result).ko_list M = some ki →
      r ∈ ki.pulled_by →
      r ∈ ["A", "B"] ∧ Relation.TransGen (ko_dep scenario4_result.ko_list) r M) ∧
    (∀ M ki, map_find (mark_all ["A", "B"] scenario4_result).ko_list M = some ki →
      (¬ ∃ r ∈ ["A", "B"], Relation.TransGen (ko_dep scenario4_result.ko_list) r M) →
      ki.pulled_by = []) :=
  ⟨rfl, attribution_soundness scenario4 ["A", "B"] scenario4_result rfl⟩

/-! ## Claims on the report and on the index -/

theorem show_autoinstalled_fold (kl : List (String × Ko_info)) (acc : List Report × Bool) :
    kl.foldl
      (fun (acc : List Report × Bool) (e : String × Ko_info) =>
        if e.2.su && !e.2.pulled_by.isEmpty then
          (acc.1 ++ [Report.dependency_for e.1 e.2.pulled_by], true)
        else acc) acc =
    (acc.1 ++ (kl.filter (fun e => e.2.su && !e.2.pulled_by.isEmpty)).map
        (fun e => Report.dependency_for e.1 e.2.pulled_by),
      acc.2 || kl.any (fun e => e.2.su && !e.2.pulled_by.isEmpty)) := by
  induction kl generalizing acc with
  | nil => simp
  | cons e rest ih =>
    rw [List.foldl_cons, ih]
    by_cases h : (e.2.su && !e.2.pulled_by.isEmpty) = true
    · simp [h, List.filter_cons_of_pos]
    · simp only [h, if_false, Bool.false_eq_true]
      simp only [List.filter_cons, List.any_cons, h, if_false, Bool.false_eq_true,
        Bool.false_or]

/-- C9 as stated fails: in Scenario 1 with both `A` and `B` requested, `B` was requested
directly (its `su` is true), and `show_autoinstalled` reports it as a dependency of
`A`. -/
theorem show_autoinstalled_counterexample :
    resolve scenario1 ["A", "B"] = .ok scenario1_result ∧
    map_find (mark_all ["A", "B"] scenario1_result).ko_list "B" =
      some ⟨[], ["A"], some "b.ko", true⟩ ∧
    show_autoinstalled (mark_all ["A", "B"] scenario1_result).ko_list =
      [Report.dependency_for "B" ["A"], Report.can_omit] :=
  ⟨rfl, by decide, by decide⟩

/-- C9 as amended, the reporting rule of `show_autoinstalled`: for every `ko_list`, a
module is reported as a dependency exactly when its entry has `su` true (the user
requested it) and a non-empty `pulled_by` set, which is the set printed; an entry whose
`su` is false is never reported. -/
theorem show_autoinstalled_rule (ko_list : List (String × Ko_info)) (mn : String)
    (pb : List String) :
    Report.dependency_for mn pb ∈ show_autoinstalled ko_list ↔
      ∃ ki, (mn, ki) ∈ ko_list ∧ ki.su = true ∧ ki.pulled_by ≠ [] ∧ pb = ki.pulled_by := by
  unfold show_autoinstalled
  simp only [show_autoinstalled_fold, List.nil_append, Bool.false_or]
  have key : Report.dependency_for mn pb ∈
      (ko_list.filter (fun e => e.2.su && !e.2.pulled_by.isEmpty)).map
        (fun e => Report.dependency_for e.1 e.2.pulled_by) ↔
      ∃ ki, (mn, ki) ∈ ko_list ∧ ki.su = true ∧ ki.pulled_by ≠ [] ∧ pb = ki.pulled_by := by
    simp only [List.mem_map, List.mem_filter, Bool.and_eq_true, Bool.not_eq_true',
      List.isEmpty_eq_false, Report.dependency_for.injEq]
    constructor
    · rintro ⟨⟨k, ki⟩, ⟨hmem, hsu, hne⟩, hk, hp⟩
      simp only at hk hp hsu hne
      subst hk
      exact ⟨ki, hmem, hsu, hne, hp.symm⟩
    · rintro ⟨ki, hmem, hsu, hne, hp⟩
      exact ⟨(mn, ki), ⟨hmem, hsu, hne⟩, rfl, hp.symm⟩
  split
  · rw [List.mem_append, key]
    simp
  · exact key

theorem find_all_ko_step_eq (acc : List (String × String) × List Diag) (it : DirEntry) :
    find_all_ko_step acc it =
      if is_ko it then
        (map_put acc.1 (path_stem it.path) it.relative,
          if (map_find acc.1 (path_stem it.path)).isNone then acc.2
          else acc.2 ++ [Diag.same_name (path_stem it.path)])
      else acc := by
  unfold find_all_ko_step is_ko
  cases it.is_regular_file <;> by_cases h : path_extension it.path = ".ko" <;> simp [h]

theorem find_all_ko_fold (entries : List DirEntry) :
    ∀ (acc : List (String × String) × List Diag) (seen : List String),
      (∀ s, s ∈ seen ↔ (map_find acc.1 s).isSome = true) →
      (∀ stem, map_find (entries.foldl find_all_ko_step acc).1 stem =
        match last_met entries stem with
        | some r => some r
        | none => map_find acc.1 stem) ∧
      (entries.foldl find_all_ko_step acc).2 = acc.2 ++ repeats_from seen entries := by
  induction entries with
  | nil => intro acc seen _; simp [last_met, repeats_from]
  | cons it rest ih =>
    intro acc seen hs
    rw [List.foldl_cons, find_all_ko_step_eq]
    by_cases hko : is_ko it = true
    · simp only [hko, if_true]
      have hs2 : ∀ s, s ∈ path_stem it.path :: seen ↔
          (map_find (map_put acc.1 (path_stem it.path) it.relative) s).isSome = true := by
        intro s
        rw [map_find_put, List.mem_cons, hs]
        by_cases e : s = path_stem it.path
        · simp [e]
        · simp [e]
      obtain ⟨h1, h2⟩ := ih (map_put acc.1 (path_stem it.path) it.relative,
          if (map_find acc.1 (path_stem it.path)).isNone then acc.2
          else acc.2 ++ [Diag.same_name (path_stem it.path)]) _ hs2
      constructor
      · intro stem
        rw [h1 stem]
        simp only [last_met, hko, Bool.true_and, beq_iff_eq, map_find_put]
        cases last_met rest stem with
        | some r => rfl
        | none =>
          by_cases e : path_stem it.path = stem
          · simp [e]
          · have e2 : ¬ stem = path_stem it.path := fun h => e h.symm
            simp [e, e2]
      · rw [h2]
        simp only [repeats_from, hko, if_true]
        by_cases hseen : path_stem it.path ∈ seen
        · have := (hs _).1 hseen
          rw [Option.isSome_iff_exists] at this
          obtain ⟨v, hv⟩ := this
          simp [hseen, hv]
        · have : (map_find acc.1 (path_stem it.path)).isNone = true := by
            cases hf : map_find acc.1 (path_stem it.path) with
            | none => rfl
            | some v => exact absurd ((hs _).2 (by simp [hf])) hseen
          simp [hseen, this]
    · simp only [hko, if_false, Bool.false_eq_true]
      obtain ⟨h1, h2⟩ := ih acc seen hs
      constructor
      · intro stem
        rw [h1 stem]
        simp only [last_met, hko, Bool.false_and, Bool.false_eq_true, if_false]
        cases last_met rest stem <;> rfl
      · rw [h2]
        simp only [repeats_from, hko, if_false, Bool.false_eq_true]

/-- C7 as stated fails on Scenario 3: the first file met with the stem `net` is
`a/net.ko`, but after the scan the index maps `net` to `b/net.ko`, the file met later
(one diagnostic is written). -/
theorem find_all_ko_files_counterexample :
    first_met net_scan "net" = some "a/net.ko" ∧
    map_find (find_all_ko_files net_scan).1 "net" = some "b/net.ko" ∧
    (find_all_ko_files net_scan).2 = [Diag.same_name "net"] := by
  decide

/-- C7 as amended, last seen wins in the module index: for every sequence of directory
entries, `find_all_ko_files` maps each stem to the relative path of the last module
file met with that stem (a later file overwrites the entry), and writes one
`more than one module with same name` diagnostic for each module file whose stem was
met in an earlier one. -/
theorem find_all_ko_files_last_seen (entries : List DirEntry) :
    (∀ stem, map_find (find_all_ko_files entries).1 stem = last_met entries stem) ∧
    (find_all_ko_files entries).2 = repeats_from [] entries := by
  obtain ⟨h1, h2⟩ := find_all_ko_fold entries ([], []) [] (by simp [map_find])
  constructor
  · intro stem
    unfold find_all_ko_files
    rw [h1 stem]
    cases last_met entries stem <;> simp [map_find]
  · unfold find_all_ko_files
    rw [h2]
    simp

/-! ## `split_sv` -/

theorem comma_fields_ne_nil (s : List Char) : comma_fields s ≠ [] := by
  cases s with
  | nil => simp [comma_fields]
  | cons c cs =>
    simp only [comma_fields]
    split
    · simp
    · split <;> simp

/-- The first field is what precedes the first comma; the other fields are those of
the text after that comma. -/
theorem comma_fields_eq (s : List Char) :
    comma_fields s = s.takeWhile (fun c => c != ',') ::
      (match s.dropWhile (fun c => c != ',') with
        | [] => []
        | _ :: rest => comma_fields rest) := by
  induction s with
  | nil => simp [comma_fields]
  | cons c cs ih =>
    by_cases h : c = ','
    · subst h
      simp [comma_fields, List.takeWhile, List.dropWhile]
    · have hb : (c != ',') = true := by simpa using h
      simp only [comma_fields, h, if_false, List.takeWhile, List.dropWhile, hb]
      rw [ih]

theorem split_sv_loop_eq (fuel : Nat) : ∀ (s : List Char), s.length < fuel →
    split_sv_loop fuel s = nonempty_fields s := by
  induction fuel with
  | zero => intro s h; omega
  | succ fuel ih =>
    intro s hs
    cases s with
    | nil => simp [split_sv_loop, nonempty_fields, comma_fields]
    | cons c cs =>
      have hd : ((c :: cs).dropWhile (fun c => c != ',')).length ≤ (c :: cs).length :=
        (List.dropWhile_sublist _).length_le
      simp only [split_sv_loop, nonempty_fields]
      rw [comma_fields_eq (c :: cs)]
      simp only [List.cons_ne_nil, if_false, List.filter_cons]
      cases hdrop : (c :: cs).dropWhile (fun c => c != ',') with
      | nil =>
        simp only [List.filter_nil]
        by_cases hp : (c :: cs).takeWhile (fun c => c != ',') = []
        · simp [hp]
        · simp [hp]
      | cons a rest =>
        rw [hdrop] at hd
        simp only [List.length_cons] at hd hs
        simp only [ih rest (by omega), nonempty_fields]
        by_cases hp : (c :: cs).takeWhile (fun c => c != ',') = []
        · simp [hp]
        · simp [hp]

/-- The function `split_sv` returns the non-empty comma-separated fields, in order. -/
theorem split_sv_eq (strv : String) : split_sv strv = nonempty_fields strv.data :=
  split_sv_loop_eq _ _ (Nat.lt_succ_self _)

theorem comma_fields_single (a : List Char) (h : ',' ∉ a) : comma_fields a = [a] := by
  induction a with
  | nil => rfl
  | cons c a ih =>
    have hc : c ≠ ',' := fun e => h (e ▸ List.mem_cons_self _ _)
    have ha : ',' ∉ a := fun e => h (List.mem_cons_of_mem _ e)
    simp [comma_fields, hc, ih ha]

theorem comma_fields_append (a rest : List Char) (h : ',' ∉ a) :
    comma_fields (a ++ ',' :: rest) = a :: comma_fields rest := by
  induction a with
  | nil => simp [comma_fields]
  | cons c a ih =>
    have hc : c ≠ ',' := fun e => h (e ▸ List.mem_cons_self _ _)
    have ha : ',' ∉ a := fun e => h (List.mem_cons_of_mem _ e)
    simp [comma_fields, hc, ih ha]

theorem comma_fields_no_comma (s : List Char) : ∀ f ∈ comma_fields s, ',' ∉ f := by
  induction s with
  | nil => simp [comma_fields]
  | cons c cs ih =>
    intro f hf
    simp only [comma_fields] at hf
    split at hf
    · rcases List.mem_cons.1 hf with rfl | hf
      · simp
      · exact ih f hf
    · rename_i hc
      split at hf
      · simp only [List.mem_singleton] at hf
        subst hf
        simpa using fun e => hc e.symm
      · rename_i g gs hg
        rcases List.mem_cons.1 hf with rfl | hf
        · have := ih g (by rw [hg]; exact List.mem_cons_self _ _)
          simp only [List.mem_cons, not_or]
          exact ⟨fun e => hc e.symm, this⟩
        · exact ih f (by rw [hg]; exact List.mem_cons_of_mem _ hf)

theorem comma_fields_join (names : List String) (h : ∀ n ∈ names, ',' ∉ n.data)
    (hne : names ≠ []) : comma_fields (join_commas names) = names.map String.data := by
  induction names with
  | nil => exact absurd rfl hne
  | cons a rest ih =>
    cases rest with
    | nil => simp [join_commas, comma_fields_single _ (h a (List.mem_cons_self _ _))]
    | cons b rest =>
      simp only [join_commas, List.map_cons] at ih ⊢
      rw [comma_fields_append _ _ (h a (List.mem_cons_self _ _)),
        ih (fun n hn => h n (List.mem_cons_of_mem _ hn)) (by simp)]

/-- The text that `String.intercalate` builds is `join_commas`. -/
theorem intercalate_go_data (acc : String) (l : List String) :
    (String.intercalate.go acc "," l).data =
      acc.data ++ (l.map (fun b => ',' :: b.data)).flatten := by
  induction l generalizing acc with
  | nil => simp [String.intercalate.go]
  | cons b l ih =>
    simp only [String.intercalate.go, ih, String.data_append, List.map_cons, List.flatten_cons]
    simp [List.append_assoc]

theorem join_commas_cons (a : String) (l : List String) :
    join_commas (a :: l) = a.data ++ (l.map (fun b => ',' :: b.data)).flatten := by
  induction l generalizing a with
  | nil => simp [join_commas]
  | cons b l ih => simp [join_commas, ih b]

theorem intercalate_data (names : List String) :
    (",".intercalate names).data = join_commas names := by
  cases names with
  | nil => rfl
  | cons a l => simp only [String.intercalate, intercalate_go_data, join_commas_cons]

/-- C14, round trip of `split_sv`: for names that are non-empty and hold no comma,
`split_sv` applied to the names joined with `','` returns exactly the list of names,
in order (the empty list, joined to the empty text, gives the empty list); and for
every text each piece that `split_sv` returns is non-empty and holds no comma. -/
theorem split_sv_round_trip (names : List String)
    (h : ∀ n ∈ names, n ≠ "" ∧ ',' ∉ n.data) :
    split_sv (",".intercalate names) = names ∧
    ∀ strv : String, ∀ p ∈ split_sv strv, p ≠ "" ∧ ',' ∉ p.data := by
  constructor
  · rw [split_sv_eq, intercalate_data]
    cases hn : names with
    | nil => rfl
    | cons a rest =>
      rw [← hn]
      simp only [nonempty_fields]
      rw [comma_fields_join names (fun n hn' => (h n hn').2) (by simp [hn])]
      have hf : (names.map String.data).filter (fun f => !f.isEmpty) = names.map String.data := by
        apply List.filter_eq_self.2
        intro f hf
        obtain ⟨n, hn', rfl⟩ := List.mem_map.1 hf
        have := (h n hn').1
        cases hd : n.data with
        | nil => exact absurd (String.ext hd) this
        | cons c cs => rfl
      rw [hf, List.map_map]
      conv => rhs; rw [← List.map_id names]
      exact List.map_congr_left (fun n _ => rfl)
  · intro strv p hp
    rw [split_sv_eq] at hp
    simp only [nonempty_fields, List.mem_map, List.mem_filter] at hp
    obtain ⟨f, ⟨hf, hne⟩, rfl⟩ := hp
    constructor
    · intro e
      have : f = [] := congrArg String.data e
      simp [this] at hne
    · exact comma_fields_no_comma _ f hf

/-- Three names as an instance of C14. -/
theorem split_sv_round_trip_witness :
    (∀ n ∈ ["ip6_tables", "x_tables", "nf"], n ≠ "" ∧ ',' ∉ n.data) ∧
    split_sv (",".intercalate ["ip6_tables", "x_tables", "nf"]) =
      ["ip6_tables", "x_tables", "nf"] ∧
    ∀ strv : String, ∀ p ∈ split_sv strv, p ≠ "" ∧ ',' ∉ p.data :=
  ⟨by decide, split_sv_round_trip ["ip6_tables", "x_tables", "nf"] (by decide)⟩

/-! ## Claims on `read_ko` -/

theorem read_ko_line_cases (acc : ReadAcc) (line : List Char) :
    read_ko_line acc line =
      if first_word line = "depends:" then
        ⟨acc.res ++ split_sv (second_word line), acc.firmware, true⟩
      else if first_word line = "firmware:" then
        ⟨acc.res, (split_sv (second_word line)).foldl set_insert acc.firmware, acc.depends_found⟩
      else acc := rfl

theorem read_ko_fold_found_iff (lines : List (List Char)) (acc : ReadAcc) :
    (lines.foldl read_ko_line acc).depends_found = true ↔
      acc.depends_found = true ∨ ∃ l ∈ lines, first_word l = "depends:" := by
  induction lines generalizing acc with
  | nil => simp
  | cons l ls ih =>
    rw [List.foldl_cons, ih, read_ko_line_cases]
    by_cases h1 : first_word l = "depends:"
    · simp [h1]
    · by_cases h2 : first_word l = "firmware:"
      · simp [h1, h2]
      · simp [h1, h2]

theorem read_ko_fold_res_eq (lines : List (List Char)) (acc : ReadAcc) :
    (lines.foldl read_ko_line acc).res =
      acc.res ++ ((lines.filter (fun l => first_word l = "depends:")).map
        (fun l => split_sv (second_word l))).flatten := by
  induction lines generalizing acc with
  | nil => simp
  | cons l ls ih =>
    rw [List.foldl_cons, ih, read_ko_line_cases]
    by_cases h1 : first_word l = "depends:"
    · simp [h1, List.filter_cons]
    · by_cases h2 : first_word l = "firmware:"
      · simp [h1, h2, List.filter_cons]
      · simp [h1, h2, List.filter_cons]

theorem read_ko_fold_firmware_iff (lines : List (List Char)) (acc : ReadAcc) (x : String) :
    x ∈ (lines.foldl read_ko_line acc).firmware ↔
      x ∈ acc.firmware ∨
        ∃ l ∈ lines, first_word l = "firmware:" ∧ x ∈ split_sv (second_word l) := by
  induction lines generalizing acc with
  | nil => simp
  | cons l ls ih =>
    rw [List.foldl_cons, ih, read_ko_line_cases]
    by_cases h1 : first_word l = "depends:"
    · have h2 : first_word l ≠ "firmware:" := by rw [h1]; decide
      simp [h1, h2]
    · by_cases h2 : first_word l = "firmware:"
      · simp [h1, h2, mem_foldl_set_insert, or_assoc]
      · simp [h1, h2]

/-- C12, parsing of the tool output in `read_ko`: when exactly one line of the output
has `depends:` as its first word, `read_ko` returns the non-empty comma-separated names
of the second word of that line, in order; the firmware set gains exactly the
non-empty comma-separated names of the second word of every line whose first word is
`firmware:`; and a line with any other first word changes nothing. -/
theorem read_ko_parses (modinfo : String → String) (module : String) (fw : List String)
    (dline : List Char)
    (h : (getlines (modinfo module)).filter (fun l => first_word l = "depends:") = [dline]) :
    (∃ fw2, read_ko modinfo module fw = .ok (nonempty_fields (second_word dline).data, fw2) ∧
      ∀ x, x ∈ fw2 ↔ x ∈ fw ∨ ∃ l ∈ getlines (modinfo module),
        first_word l = "firmware:" ∧ x ∈ nonempty_fields (second_word l).data) ∧
    ∀ (acc : ReadAcc) (l : List Char), first_word l ≠ "depends:" →
      first_word l ≠ "firmware:" → read_ko_line acc l = acc := by
  constructor
  · have hfound : (read_ko_scan (modinfo module) fw).depends_found = true := by
      rw [read_ko_scan, read_ko_fold_found_iff]
      right
      have hm : dline ∈ (getlines (modinfo module)).filter
          (fun l => first_word l = "depends:") := by rw [h]; exact List.mem_singleton.2 rfl
      obtain ⟨h1, h2⟩ := List.mem_filter.1 hm
      exact ⟨dline, h1, by simpa using h2⟩
    refine ⟨(read_ko_scan (modinfo module) fw).firmware, ?_, ?_⟩
    · simp only [read_ko, hfound, if_true]
      rw [read_ko_scan, read_ko_fold_res_eq, h]
      simp [split_sv_eq]
    · intro x
      rw [read_ko_scan, read_ko_fold_firmware_iff]
      simp only [split_sv_eq]
  · intro acc l h1 h2
    rw [read_ko_line_cases]
    simp [h1, h2]

/-- The file of `C` in the diamond as an instance of C12. -/
theorem read_ko_parses_witness :
    (getlines (diamond_modinfo "/m/sub/c.ko")).filter (fun l => first_word l = "depends:") =
      ["depends:        A".data] ∧
    (∃ fw2, read_ko diamond_modinfo "/m/sub/c.ko" ["fx.bin"] =
        .ok (nonempty_fields (second_word "depends:        A".data).data, fw2) ∧
      ∀ x, x ∈ fw2 ↔ x ∈ ["fx.bin"] ∨ ∃ l ∈ getlines (diamond_modinfo "/m/sub/c.ko"),
        first_word l = "firmware:" ∧ x ∈ nonempty_fields (second_word l).data) ∧
    ∀ (acc : ReadAcc) (l : List Char), first_word l ≠ "depends:" →
      first_word l ≠ "firmware:" → read_ko_line acc l = acc :=
  ⟨by decide, read_ko_parses diamond_modinfo "/m/sub/c.ko" ["fx.bin"] "depends:        A".data
    (by decide)⟩

/-- Three outputs of the tool: the dependencies and firmware of a full output, an empty
`depends:` value, and an output without a `depends:` line. -/
theorem read_ko_examples :
    read_ko (fun _ => "filename: /m/a.ko\nfirmware: f1.bin,f2.bin\ndepends: b,,c,\nfirmware: f0.bin\n")
        "/m/a.ko" [] = .ok (["b", "c"], ["f0.bin", "f1.bin", "f2.bin"]) ∧
    read_ko (fun _ => "depends:\n") "/m/a.ko" [] = .ok ([], []) ∧
    read_ko (fun _ => "firmware: f1.bin\nfilename: /m/a.ko\n") "/m/a.ko" [] =
      .error .assert_depends_found :=
  ⟨rfl, rfl, rfl⟩

/-- C13, absence of the `depends:` key: the flag `depends_found` is true at the end of
`read_ko`, so that its assertion holds and `read_ko` returns, exactly when some line of
the output has `depends:` as its first word; otherwise the assertion stops the
program. -/
theorem depends_found_iff (modinfo : String → String) (module : String) (fw : List String) :
    ((read_ko_scan (modinfo module) fw).depends_found = true ↔
      ∃ l ∈ getlines (modinfo module), first_word l = "depends:") ∧
    ((∃ r, read_ko modinfo module fw = .ok r) ↔
      ∃ l ∈ getlines (modinfo module), first_word l = "depends:") ∧
    (read_ko modinfo module fw = .error .assert_depends_found ↔
      ¬ ∃ l ∈ getlines (modinfo module), first_word l = "depends:") := by
  have h : (read_ko_scan (modinfo module) fw).depends_found = true ↔
      ∃ l ∈ getlines (modinfo module), first_word l = "depends:" := by
    rw [read_ko_scan, read_ko_fold_found_iff]
    simp
  refine ⟨h, ?_, ?_⟩
  · rw [← h]
    simp only [read_ko]
    cases (read_ko_scan (modinfo module) fw).depends_found <;> simp
  · rw [← h]
    simp only [read_ko]
    cases (read_ko_scan (modinfo module) fw).depends_found <;> simp

/-! ## Claims on copying -/

theorem my_copy_file_diag (verbose : Bool) (src dst : String) (o : FsOutcome) (errflag : Bool)
    (s : String) :
    CopyEvent.cant_make_hard_link s ∈ (my_copy_file verbose true src dst o errflag).1 ↔
      s = src ∧ o.create_hard_link.failed = true ∧ errflag = false := by
  cases verbose <;> cases errflag <;> cases h1 : o.create_hard_link.failed <;>
    cases h2 : o.create_directories.failed <;> cases h3 : o.copy_file.failed <;>
    simp [my_copy_file, h1, h2, h3]

theorem my_copy_file_flag (verbose : Bool) (src dst : String) (o : FsOutcome) (errflag : Bool) :
    (my_copy_file verbose true src dst o errflag).2 = (errflag || o.create_hard_link.failed) := by
  cases errflag <;> cases h1 : o.create_hard_link.failed <;> simp [my_copy_file, h1]

theorem my_copy_file_copies (verbose try_link : Bool) (src dst : String) (o : FsOutcome)
    (errflag : Bool) :
    CopyEvent.copy_file src dst ∈ (my_copy_file verbose try_link src dst o errflag).1 := by
  simp [my_copy_file]

theorem my_copy_file_count (verbose : Bool) (src dst : String) (o : FsOutcome) (errflag : Bool) :
    ((my_copy_file verbose true src dst o errflag).1.filter is_link_diag).length =
      if o.create_hard_link.failed && !errflag then 1 else 0 := by
  cases verbose <;> cases errflag <;> cases h1 : o.create_hard_link.failed <;>
    cases h2 : o.create_directories.failed <;> cases h3 : o.copy_file.failed <;>
    simp [my_copy_file, h1, h2, h3, is_link_diag, List.filter_cons]

theorem copy_run_append (verbose : Bool) (pre post : List (String × String × FsOutcome))
    (errflag : Bool) :
    copy_run verbose true (pre ++ post) errflag =
      copy_run verbose true pre errflag ++
        copy_run verbose true post (errflag || pre.any link_fails) := by
  induction pre generalizing errflag with
  | nil => simp [copy_run]
  | cons c pre ih =>
    obtain ⟨src, dst, o⟩ := c
    have e := ih (errflag || o.create_hard_link.failed)
    simp only [List.cons_append, copy_run, my_copy_file_flag, List.any_cons, link_fails]
    rw [Bool.or_assoc] at e
    exact congrArg _ e

theorem copy_run_length (verbose try_link : Bool) (calls : List (String × String × FsOutcome))
    (errflag : Bool) : (copy_run verbose try_link calls errflag).length = calls.length := by
  induction calls generalizing errflag with
  | nil => rfl
  | cons c rest ih =>
    obtain ⟨src, dst, o⟩ := c
    simp [copy_run, ih]

theorem copy_run_count (verbose : Bool) (calls : List (String × String × FsOutcome))
    (errflag : Bool) :
    ((copy_run verbose true calls errflag).flatten.filter is_link_diag).length ≤
      if errflag then 0 else 1 := by
  induction calls generalizing errflag with
  | nil => simp [copy_run]
  | cons c rest ih =>
    obtain ⟨src, dst, o⟩ := c
    simp only [copy_run, List.flatten_cons, List.filter_append, List.length_append,
      my_copy_file_count, my_copy_file_flag]
    have := ih (errflag || o.create_hard_link.failed)
    cases errflag <;> cases h1 : o.create_hard_link.failed <;> simp [h1] at this ⊢ <;> omega

/-- C18, hard-link failure diagnostic at most once: in link mode, for every sequence of
`my_copy_file` calls and of answers of the file system, the line `Can't make hard link`
is written at most once; the call that writes it is the first whose link attempt fails
with an error other than file-exists, and it names the source of that call; and every
call, that one and the later ones included, attempts the plain copy. -/
theorem hard_link_diag_once (verbose : Bool) (calls : List (String × String × FsOutcome)) :
    ((copy_run verbose true calls false).flatten.filter is_link_diag).length ≤ 1 ∧
    (∀ pre c post s, calls = pre ++ c :: post →
      (CopyEvent.cant_make_hard_link s ∈ ((copy_run verbose true calls false).get? pre.length).getD []
        ↔ s = c.1 ∧ link_fails c = true ∧ ∀ p ∈ pre, link_fails p = false)) ∧
    (∀ pre c post, calls = pre ++ c :: post →
      CopyEvent.copy_file c.1 c.2.1 ∈
        ((copy_run verbose true calls false).get? pre.length).getD []) := by
  have hget : ∀ pre c post, calls = pre ++ c :: post →
      ((copy_run verbose true calls false).get? pre.length).getD [] =
        (my_copy_file verbose true c.1 c.2.1 c.2.2 (pre.any link_fails)).1 := by
    intro pre c post hc
    obtain ⟨src, dst, o⟩ := c
    rw [hc, copy_run_append]
    have hl := copy_run_length verbose true pre false
    rw [List.get?_eq_getElem?, List.getElem?_append_right (by omega)]
    simp [hl, copy_run]
  refine ⟨by simpa using copy_run_count verbose calls false, ?_, ?_⟩
  · intro pre c post s hc
    rw [hget pre c post hc, my_copy_file_diag]
    simp [link_fails]
  · intro pre c post hc
    rw [hget pre c post hc]
    exact my_copy_file_copies _ _ _ _ _ _

/-- Scenario 5: the first link attempt fails, the second would fail too; one
diagnostic is written and both files are copied. -/
theorem hard_link_scenario5 :
    copy_run false true
      [("/s/a.ko", "/d/a.ko", ⟨.ok, .other, .ok⟩), ("/s/b.ko", "/d/b.ko", ⟨.ok, .other, .ok⟩)]
      false =
      [[.create_directories "/d", .create_hard_link "/s/a.ko" "/d/a.ko",
          .cant_make_hard_link "/s/a.ko", .copy_file "/s/a.ko" "/d/a.ko"],
       [.create_directories "/d", .create_hard_link "/s/b.ko" "/d/b.ko",
          .copy_file "/s/b.ko" "/d/b.ko"]] := by
  decide

theorem copy_modules_ok (srcdir dstdir : String) (ko_list : List (String × Ko_info))
    (idx : String → String)
    (h : ∀ e ∈ ko_list, e.2.path = some (idx e.1)) :
    copy_modules srcdir dstdir ko_list =
      (ko_list.map (fun e => (path_append srcdir (idx e.1), path_append dstdir (idx e.1))),
        false) := by
  induction ko_list with
  | nil => rfl
  | cons e rest ih =>
    obtain ⟨k, mi⟩ := e
    have hk := h (k, mi) (List.mem_cons_self _ _)
    simp only at hk
    simp only [copy_modules, hk, List.map_cons,
      ih (fun e he => h e (List.mem_cons_of_mem _ he))]

/-- C17, path invariant and validity of the copy assertion: after resolution every
entry of `ko_list` has a non-null `path`, which is the index entry of the same module
name, so `assert(mi.path)` never stops `copy_modules`, which calls `my_copy_file` once
per entry on the file of that entry. -/
theorem path_invariant (env : Env) (ko_files : List String) (st : State) (dstdir : String)
    (h : resolve env ko_files = .ok st) :
    (∀ M ki, (M, ki) ∈ st.ko_list → ki.path ≠ none ∧ ki.path = map_find env.all_ko M) ∧
    copy_modules env.srcdir dstdir st.ko_list =
      (st.ko_list.map (fun e => (module_file env e.1,
          path_append dstdir ((map_find env.all_ko e.1).getD ""))), false) := by
  have p := resolve_spec env ko_files st h
  have hpath : ∀ M ki, (M, ki) ∈ st.ko_list →
      ∃ pth, map_find env.all_ko M = some pth ∧ ki.path = some pth := by
    intro M ki hm
    have hf := map_find_of_mem st.ko_list p.inv.nodup M ki hm
    obtain ⟨pth, hp, e, _⟩ := p.inv.entry M ki hf
    exact ⟨pth, hp, by rw [e]⟩
  constructor
  · intro M ki hm
    obtain ⟨pth, hp, hk⟩ := hpath M ki hm
    rw [hk, hp]
    exact ⟨by simp, rfl⟩
  · rw [copy_modules_ok env.srcdir dstdir st.ko_list
      (fun k => (map_find env.all_ko k).getD "")]
    · rfl
    · rintro ⟨M, ki⟩ hm
      obtain ⟨pth, hp, hk⟩ := hpath M ki hm
      simp [hk, hp]

/-- The diamond as an instance of C17. -/
theorem path_invariant_witness :
    resolve diamond ["A", "B"] = .ok diamond_result ∧
    (∀ M ki, (M, ki) ∈ diamond_result.ko_list →
      ki.path ≠ none ∧ ki.path = map_find diamond.all_ko M) ∧
    copy_modules diamond.srcdir "/dst" diamond_result.ko_list =
      (diamond_result.ko_list.map (fun e => (module_file diamond e.1,
          path_append "/dst" ((map_find diamond.all_ko e.1).getD ""))), false) :=
  ⟨rfl, path_invariant diamond ["A", "B"] diamond_result "/dst" rfl⟩

/-! ## Termination -/

theorem foldlM_budget (f g : State → String → Except Abort State)
    (hfg : ∀ n s, f s n ≠ .error .out_of_fuel → g s n = f s n) :
    ∀ (l : List String) (st : State), l.foldlM f st ≠ .error .out_of_fuel →
      l.foldlM g st = l.foldlM f st := by
  intro l
  induction l with
  | nil => intro st _; rfl
  | cons n ns ih =>
    intro st h
    rw [List.foldlM_cons] at h ⊢
    rw [List.foldlM_cons]
    cases hf : f st n with
    | error e =>
      rw [hf] at h
      have he : f st n ≠ .error .out_of_fuel := by
        rw [hf]
        exact h
      rw [hfg n st he, hf]
      rfl
    | ok s1 =>
      rw [hf] at h
      have he : f st n ≠ .error .out_of_fuel := by rw [hf]; simp
      rw [hfg n st he, hf]
      exact ih s1 h

/-- A larger budget does not change the outcome of a call that did not run out of
budget. -/
theorem process_module_budget_succ (env : Env) (fuel : Nat) : ∀ (name : String) (st : State),
    process_module env fuel name st ≠ .error .out_of_fuel →
    process_module env (fuel + 1) name st = process_module env fuel name st := by
  induction fuel with
  | zero => intro name st h; simp [process_module] at h
  | succ fuel ih =>
    intro name st h
    rw [process_module] at h
    rw [process_module]
    conv => rhs; rw [process_module]
    cases hidx : map_find env.all_ko name with
    | none => rfl
    | some pth =>
      rw [hidx] at h
      simp only at h ⊢
      cases hk : map_find st.ko_list name with
      | some ki => rfl
      | none =>
        rw [hk] at h
        simp only at h ⊢
        cases hr : read_ko env.modinfo (path_append env.srcdir pth) st.firmware with
        | error e => rfl
        | ok r =>
          obtain ⟨deps, fw⟩ := r
          rw [hr] at h
          simp only at h ⊢
          exact foldlM_budget _ _ (fun n s hn => ih n s hn) deps _ h

theorem process_module_budget (env : Env) (fuel : Nat) (name : String) (st : State)
    (h : process_module env fuel name st ≠ .error .out_of_fuel) (k : Nat) :
    process_module env (fuel + k) name st = process_module env fuel name st := by
  induction k with
  | zero => rfl
  | succ k ih =>
    rw [← Nat.add_assoc, process_module_budget_succ env (fuel + k) name st (by rw [ih]; exact h), ih]

theorem calls_le_index (env : Env) (st : State) (h : Inv env st) :
    st.read_ko_calls.length ≤ env.all_ko.length := by
  have h1 : st.read_ko_calls.length = (map_keys st.ko_list).length := by
    rw [h.calls.length_eq, List.length_map]
  have h2 : map_keys st.ko_list ⊆ map_keys env.all_ko := by
    intro k hk
    obtain ⟨ki, hki⟩ := (mem_map_keys _ _).1 hk
    obtain ⟨pth, hp, _⟩ := h.entry k ki hki
    exact (mem_map_keys _ _).2 ⟨pth, hp⟩
  have h3 := (List.subperm_of_subset h.nodup h2).length_le
  rw [h1]
  simpa [map_keys] using h3

/-- C19, termination of resolution without a cycle guard: from every state of the run,
a call of `process_module` with a budget above the number of index entries does not run
out of budget, and every such budget gives the same outcome, so the call of the source
terminates, also for cyclic dependency lists; a name that is already a key of
`ko_list` is left at once, without descent; and when the call returns, `read_ko` has been
called at most as many times as the index has entries. -/
theorem resolution_terminates (env : Env) (name : String) (st : State) (fuel : Nat)
    (hinv : Inv env st) (hfuel : env.all_ko.length < fuel) :
    process_module env fuel name st ≠ .error .out_of_fuel ∧
    process_module env fuel name st = process_module env (env.all_ko.length + 1) name st ∧
    (∀ ki, map_find st.ko_list name = some ki → process_module env fuel name st = .ok st) ∧
    (∀ st2, process_module env fuel name st = .ok st2 →
      st2.read_ko_calls.length ≤ env.all_ko.length) := by
  have hbase : process_module env (env.all_ko.length + 1) name st ≠ .error .out_of_fuel := by
    rcases process_module_enough_fuel env (env.all_ko.length + 1) name st hinv
      (Nat.lt_succ_of_le (unvisited_le_length env st)) with ⟨st2, h⟩ | ⟨h, _⟩
    · rw [h]; simp
    · rw [h]; simp
  have heq : process_module env fuel name st =
      process_module env (env.all_ko.length + 1) name st := by
    obtain ⟨k, rfl⟩ : ∃ k, fuel = env.all_ko.length + 1 + k := ⟨fuel - (env.all_ko.length + 1), by omega⟩
    exact process_module_budget env _ name st hbase k
  refine ⟨by rw [heq]; exact hbase, heq, ?_, ?_⟩
  · intro ki hki
    obtain ⟨pth, hp, _⟩ := hinv.entry name ki hki
    rw [heq]
    simp [process_module, hp, hki]
  · intro st2 h2
    exact calls_le_index env st2 (process_module_spec env fuel name st st2 h2 hinv).inv

/-- The cyclic diamond as an instance of C19. -/
theorem resolution_terminates_witness :
    diamond.all_ko.length < 100 ∧
    process_module diamond 100 "A" {} ≠ .error .out_of_fuel ∧
    process_module diamond 100 "A" {} = process_module diamond (diamond.all_ko.length + 1) "A" {} ∧
    (∀ ki, map_find ({} : State).ko_list "A" = some ki → process_module diamond 100 "A" {} = .ok {}) ∧
    (∀ st2, process_module diamond 100 "A" {} = .ok st2 →
      st2.read_ko_calls.length ≤ diamond.all_ko.length) :=
  ⟨by decide, resolution_terminates diamond "A" {} 100 (Inv.init diamond) (by decide)⟩

/-! ## Claims on the frame and the depth guard of the attribution pass -/

/-- What the attribution pass leaves alone, for every state: the firmware set, the
calls of `read_ko`, and the `path` and `deps` of every entry; no key is removed, and a
key is new only if it is a requested name or is reached from one. -/
theorem attribution_frame_part (ko_files : List String) (st : State) :
    (mark_all ko_files st).firmware = st.firmware ∧
    (mark_all ko_files st).read_ko_calls = st.read_ko_calls ∧
    (∀ k ki, map_find st.ko_list k = some ki →
      ∃ ki2, map_find (mark_all ko_files st).ko_list k = some ki2 ∧
        ki2.path = ki.path ∧ ki2.deps = ki.deps) ∧
    (∀ k ki2, map_find (mark_all ko_files st).ko_list k = some ki2 →
      map_find st.ko_list k = none →
      k ∈ ko_files ∨ ∃ x ∈ ko_files, ∃ n, 1 ≤ n ∧ n ≤ 1025 ∧ reach_in st.ko_list n x k) := by
  have m := mark_all_spec ko_files st
  refine ⟨m.firmware, m.calls, ?_, ?_⟩
  · intro k ki hk
    obtain ⟨ki2, hk2⟩ := (m.keys k).2 (Or.inl ⟨ki, hk⟩)
    have hp := m.path k
    have hd := m.deps k
    simp only [map_index, hk, hk2, Option.getD_some] at hp hd
    exact ⟨ki2, hk2, hp, hd⟩
  · intro k ki2 hk2 hnone
    rcases (m.keys k).1 ⟨ki2, hk2⟩ with ⟨ki, hk⟩ | hu | ⟨x, hx, hr⟩
    · rw [hnone] at hk; cases hk
    · exact Or.inl hu
    · exact Or.inr ⟨x, hx, hr⟩

/-- C11 fails on the code: with `A` (which depends on the unknown `X`) and the unknown
name `Z` requested, resolution leaves the one entry `A`; the attribution pass then adds
entries for `X` and `Z` with a null `path`, so the key set of `ko_list` is not the
same before and after. -/
theorem attribution_frame_failure :
    resolve scenario2 ["A", "Z"] = .ok scenario2_result ∧
    map_keys scenario2_result.ko_list = ["A"] ∧
    (mark_all ["A", "Z"] scenario2_result).ko_list =
      [("A", ⟨["X"], [], some "a.ko", true⟩), ("X", ⟨[], ["A"], none, false⟩),
       ("Z", ⟨[], [], none, true⟩)] :=
  ⟨rfl, by decide, by decide⟩

theorem mark_dep_req_fuel_budget (user_module : String) (f1 : Nat) :
    ∀ (f2 : Nat) (module : String) (rec_lev : Nat) (st : State),
      1026 - rec_lev ≤ f1 → 1026 - rec_lev ≤ f2 →
      mark_dep_req_fuel f1 module user_module rec_lev st =
        mark_dep_req_fuel f2 module user_module rec_lev st := by
  induction f1 with
  | zero =>
    intro f2 module rec_lev st h1 h2
    have hdeep : rec_lev > 1024 := by omega
    unfold mark_dep_req_fuel
    simp [hdeep]
  | succ f1 ih =>
    intro f2 module rec_lev st h1 h2
    by_cases hdeep : rec_lev > 1024
    · unfold mark_dep_req_fuel
      simp [hdeep]
    · obtain ⟨g, rfl⟩ : ∃ g, f2 = g + 1 := ⟨f2 - 1, by omega⟩
      conv => lhs; unfold mark_dep_req_fuel
      conv => rhs; unfold mark_dep_req_fuel
      simp only [hdeep, if_false]
      have e : (fun (s : State) (n : String) =>
            mark_dep_req_fuel f1 n user_module (rec_lev + 1) s) =
          (fun (s : State) (n : String) =>
            mark_dep_req_fuel g n user_module (rec_lev + 1) s) := by
        funext s n
        exact ih g n (rec_lev + 1) s (by omega) (by omega)
      rw [e]

/-- C20, depth guard of the attribution pass: every budget of at least
`1026 - rec_lev` nested calls gives the same result of `mark_dep_req`, so the call of
the source terminates for every `ko_list`, cyclic ones included; a call with `rec_lev`
above 1024 writes `Dependency tree is too deep` and changes nothing else; and whatever
branches are cut, every module within 1025 dependency edges of a requested name is
marked with that name by the pass over all requested names. -/
theorem depth_guard (module user_module : String) (rec_lev : Nat) (st : State)
    (ko_files : List String) :
    (∀ fuel, 1026 - rec_lev ≤ fuel →
      mark_dep_req_fuel fuel module user_module rec_lev st =
        mark_dep_req module user_module rec_lev st) ∧
    (rec_lev > 1024 →
      mark_dep_req module user_module rec_lev st =
        { st with cerr := st.cerr ++ [Diag.too_deep] }) ∧
    (∀ R M n, R ∈ ko_files → 1 ≤ n → n ≤ 1025 → reach_in st.ko_list n R M →
      R ∈ (map_index (mark_all ko_files st).ko_list M).pulled_by) := by
  refine ⟨?_, ?_, ?_⟩
  · intro fuel hf
    exact mark_dep_req_fuel_budget user_module fuel (1026 - rec_lev) module rec_lev st hf
      (Nat.le_refl _)
  · intro hdeep
    rw [mark_dep_req_unfold]
    simp [hdeep]
  · intro R M n hR h1 h2 hr
    exact ((mark_all_spec ko_files st).pulled_by M R).2 (Or.inr ⟨hR, n, h1, h2, hr⟩)

set_option maxRecDepth 100000 in
/-- A module that depends on itself: the attribution pass ends, with the module marked
and one `Dependency tree is too deep` line. -/
theorem self_loop_marked :
    (mark_all ["A"] self_loop).ko_list = [("A", ⟨["A"], ["A"], some "a.ko", true⟩)] ∧
    (mark_all ["A"] self_loop).cerr = [Diag.too_deep] := by
  decide!

/-! ## The order of names -/

theorem char_toNat_inj (a b : Char) (h : a.toNat = b.toNat) : a = b := by
  apply Char.ext
  apply UInt32.ext
  exact h

theorem lt_chars_irrefl (a : List Char) : lt_chars a a = false := by
  induction a with
  | nil => rfl
  | cons c a ih => simp [lt_chars, ih]

theorem lt_chars_trans : ∀ (a b c : List Char), lt_chars a b = true → lt_chars b c = true →
    lt_chars a c = true := by
  intro a
  induction a with
  | nil =>
    intro b c h1 h2
    cases b with
    | nil => simp [lt_chars] at h1
    | cons y b =>
      cases c with
      | nil => simp [lt_chars] at h2
      | cons z c => rfl
  | cons x a ih =>
    intro b c h1 h2
    cases b with
    | nil => simp [lt_chars] at h1
    | cons y b =>
      cases c with
      | nil => simp [lt_chars] at h2
      | cons z c =>
        simp only [lt_chars] at h1 h2 ⊢
        by_cases hxy : x.toNat < y.toNat
        · by_cases hyz : y.toNat < z.toNat
          · simp [show x.toNat < z.toNat by omega]
          · simp only [hyz, if_false] at h2
            by_cases hzy : z.toNat < y.toNat
            · simp [hzy] at h2
            · simp [show x.toNat < z.toNat by omega]
        · simp only [hxy, if_false] at h1
          by_cases hyx : y.toNat < x.toNat
          · simp [hyx] at h1
          · simp only [hyx, if_false] at h1
            by_cases hyz : y.toNat < z.toNat
            · simp [show x.toNat < z.toNat by omega]
            · simp only [hyz, if_false] at h2
              by_cases hzy : z.toNat < y.toNat
              · simp [hzy] at h2
              · simp only [hzy, if_false] at h2
                have h3 : ¬ x.toNat < z.toNat := by omega
                have h4 : ¬ z.toNat < x.toNat := by omega
                simp only [h3, h4, if_false]
                exact ih b c h1 h2

theorem lt_chars_total : ∀ (a b : List Char), lt_chars a b = false → lt_chars b a = false →
    a = b := by
  intro a
  induction a with
  | nil =>
    intro b h1 h2
    cases b with
    | nil => rfl
    | cons y b => simp [lt_chars] at h1
  | cons x a ih =>
    intro b h1 h2
    cases b with
    | nil => simp [lt_chars] at h2
    | cons y b =>
      simp only [lt_chars] at h1 h2
      by_cases hxy : x.toNat < y.toNat
      · simp [hxy] at h1
      · by_cases hyx : y.toNat < x.toNat
        · simp [hyx] at h2
        · simp only [hxy, hyx, if_false] at h1 h2
          rw [char_toNat_inj x y (by omega), ih b h1 h2]

theorem string_lt_irrefl (a : String) : string_lt a a = false := lt_chars_irrefl _

theorem string_lt_trans {a b c : String} (h1 : string_lt a b = true) (h2 : string_lt b c = true) :
    string_lt a c = true := lt_chars_trans _ _ _ h1 h2

theorem string_lt_total {a b : String} (h1 : string_lt a b = false) (h2 : string_lt b a = false) :
    a = b := String.ext (lt_chars_total _ _ h1 h2)

theorem string_lt_asymm {a b : String} (h : string_lt a b = true) : string_lt b a = false := by
  cases hb : string_lt b a with
  | false => rfl
  | true =>
    have := string_lt_trans h hb
    rw [string_lt_irrefl] at this
    cases this

theorem string_le_total (a b : String) : string_le a b ∨ string_le b a := by
  unfold string_le
  cases h : string_lt b a with
  | false => exact Or.inl rfl
  | true => exact Or.inr (string_lt_asymm h)

theorem string_le_trans {a b c : String} (h1 : string_le a b) (h2 : string_le b c) :
    string_le a c := by
  unfold string_le at *
  cases h : string_lt c a with
  | false => rfl
  | true =>
    exfalso
    cases hab : string_lt a b with
    | true =>
      have := string_lt_trans h hab
      rw [h2] at this
      cases this
    | false =>
      have e := string_lt_total hab h1
      subst e
      rw [h2] at h
      cases h

/-! ## Claims on `parse_args` -/

theorem sort_strings_sorted (l : List String) :
    List.Pairwise (fun a b => string_lt b a = false) (sort_strings l) := by
  haveI : IsTotal String (fun a b => string_lt b a = false) := ⟨string_le_total⟩
  haveI : IsTrans String (fun a b => string_lt b a = false) :=
    ⟨fun _ _ _ h1 h2 => string_le_trans h1 h2⟩
  exact List.sorted_insertionSort _ l

theorem mem_sort_strings (l : List String) (x : String) : x ∈ sort_strings l ↔ x ∈ l :=
  List.mem_insertionSort _

theorem unique_from_spec (l : List String) : ∀ (prev : String),
    List.Pairwise (fun a b => string_lt b a = false) (prev :: l) →
    List.Pairwise (fun a b => string_lt a b = true) (prev :: unique_from prev l) ∧
    ∀ x, x ∈ prev :: unique_from prev l ↔ x ∈ prev :: l := by
  induction l with
  | nil => intro prev _; simp [unique_from]
  | cons y rest ih =>
    intro prev h
    have hrest : List.Pairwise (fun a b => string_lt b a = false) (y :: rest) :=
      (List.pairwise_cons.1 h).2
    have hpy : string_lt y prev = false := (List.pairwise_cons.1 h).1 y (List.mem_cons_self _ _)
    by_cases e : prev = y
    · subst e
      obtain ⟨h1, h2⟩ := ih prev hrest
      simp only [unique_from, if_true]
      refine ⟨h1, fun x => ?_⟩
      rw [h2 x]
      simp
    · obtain ⟨h1, h2⟩ := ih y hrest
      simp only [unique_from, e, if_false]
      have hlt : string_lt prev y = true := by
        cases hc : string_lt prev y with
        | true => rfl
        | false => exact absurd (string_lt_total hc hpy) e
      refine ⟨List.pairwise_cons.2 ⟨?_, h1⟩, fun x => ?_⟩
      · intro z hz
        rcases List.mem_cons.1 hz with rfl | hz
        · exact hlt
        · exact string_lt_trans hlt ((List.pairwise_cons.1 h1).1 z hz)
      · rw [List.mem_cons, h2 x, List.mem_cons, List.mem_cons, List.mem_cons]

theorem unique_strings_spec (l : List String)
    (h : List.Pairwise (fun a b => string_lt b a = false) l) :
    List.Pairwise (fun a b => string_lt a b = true) (unique_strings l) ∧
    ∀ x, x ∈ unique_strings l ↔ x ∈ l := by
  cases l with
  | nil => simp [unique_strings]
  | cons a rest => exact unique_from_spec rest a h

theorem parse_loop_res (results : List GetoptResult) : ∀ (acc acc2 : ArgAcc),
    results.foldlM parse_step acc = .ok acc2 → acc2.res = acc.res ++ positional results := by
  induction results with
  | nil =>
    intro acc acc2 h
    simp only [List.foldlM_nil] at h
    cases h
    simp [positional]
  | cons g rest ih =>
    intro acc acc2 h
    rw [List.foldlM_cons] at h
    cases hs : parse_step acc g with
    | error e => rw [hs] at h; cases h
    | ok acc1 =>
      rw [hs] at h
      have h2 := ih acc1 acc2 h
      rw [h2]
      cases g with
      | long0 o =>
        cases o with
        | none => simp [parse_step] at hs
        | some s =>
          simp only [parse_step] at hs
          split at hs
          · cases hs
          · split at hs <;> cases hs
      | unknown => simp [parse_step] at hs
      | nonoption s =>
        simp only [parse_step, Except.ok.injEq] at hs
        subst hs
        simp [positional]
      | opt_f s =>
        simp only [parse_step, Except.ok.injEq] at hs
        subst hs
        simp [positional]
      | opt_v =>
        simp only [parse_step, Except.ok.injEq] at hs
        subst hs
        simp [positional]
      | opt_l =>
        simp only [parse_step, Except.ok.injEq] at hs
        subst hs
        simp [positional]
      | fwsrc s =>
        simp only [parse_step, Except.ok.injEq] at hs
        subst hs
        simp [positional]
      | fwdst s =>
        simp only [parse_step, Except.ok.injEq] at hs
        subst hs
        simp [positional]

/-- C15, normalisation of the requested names: when `parse_args` returns, there are at
least two positional arguments, the list it returns is in strictly ascending order,
hence free of duplicates, and its elements are exactly those of the positional
arguments without the last one, which is the destination. -/
theorem parse_args_normalised (release : Option String) (results : List GetoptResult)
    (a : Args) (h : parse_args release results = .ok a) :
    2 ≤ (positional results).length ∧
    List.Pairwise (fun x y => string_lt x y = true) a.res ∧
    a.res.Nodup ∧
    (∀ x, x ∈ a.res ↔ x ∈ (positional results).dropLast) ∧
    some a.dstdir = (positional results).getLast? := by
  unfold parse_args at h
  cases hl : results.foldlM parse_step {} with
  | error e => rw [hl] at h; cases h
  | ok acc =>
    rw [hl] at h
    have hres : acc.res = positional results := by
      have := parse_loop_res results {} acc hl
      simpa using this
    simp only at h
    split at h
    · cases h
    · split at h
      · cases h
      · rename_i hlen
        simp only [Except.ok.injEq] at h
        subst h
        simp only
        rw [hres] at hlen ⊢
        obtain ⟨h1, h2⟩ := unique_strings_spec _ (sort_strings_sorted (positional results).dropLast)
        refine ⟨by omega, h1, ?_, ?_, ?_⟩
        · refine h1.imp_of_mem ?_
          intro x y _ _ hxy e
          subst e
          rw [string_lt_irrefl] at hxy
          cases hxy
        · intro x
          rw [h2 x, mem_sort_strings]
        · cases hg : (positional results).getLast? with
          | none =>
            rw [List.getLast?_eq_none_iff] at hg
            rw [hg] at hlen
            simp at hlen
          | some d => rfl

/-- A command line with options, a repeated module name and names out of order, as an
instance of C15. -/
theorem parse_args_normalised_witness :
    parse_args (some "6.1.0") sample_cmdline = .ok sample_args ∧
    2 ≤ (positional sample_cmdline).length ∧
    List.Pairwise (fun x y => string_lt x y = true) sample_args.res ∧
    sample_args.res.Nodup ∧
    (∀ x, x ∈ sample_args.res ↔ x ∈ (positional sample_cmdline).dropLast) ∧
    some sample_args.dstdir = (positional sample_cmdline).getLast? :=
  ⟨rfl, parse_args_normalised (some "6.1.0") sample_cmdline sample_args rfl⟩

/-- C16 fails on the code: with one positional argument only, `parse_args` ends in
`show_help`, whose last statement is `exit(0)`, so the exit status is zero; the same
holds for an unknown option. -/
theorem usage_exit_status :
    parse_args (some "6.1.0") [.nonoption "ext4"] = .error .help ∧
    parse_args (some "6.1.0") [] = .error .help ∧
    parse_args (some "6.1.0") [.unknown, .nonoption "ext4", .nonoption "/mnt"] = .error .help ∧
    Stop.exit_status .help = some 0 :=
  ⟨rfl, rfl, rfl, rfl⟩

/-- With fewer than two positional arguments, `parse_args` never returns: it ends the
program, and unless the loop or `uname` ended it before, it does so through
`show_help`, with exit status 0. -/
theorem usage_stops (release : Option String) (results : List GetoptResult)
    (h : (positional results).length < 2) :
    (∃ e, parse_args release results = .error e) ∧
    ∀ acc, results.foldlM parse_step {} = .ok acc →
      (acc.srcdir_s ≠ "" ∨ release ≠ none) → parse_args release results = .error .help := by
  have hres : ∀ acc, results.foldlM parse_step {} = .ok acc → acc.res = positional results := by
    intro acc hl
    have := parse_loop_res results {} acc hl
    simpa using this
  constructor
  · unfold parse_args
    cases hl : results.foldlM parse_step {} with
    | error e => exact ⟨e, rfl⟩
    | ok acc =>
      simp only
      by_cases hs : acc.srcdir_s = ""
      · cases release with
        | none => exact ⟨.error 1 "Uname error", by simp [hs]⟩
        | some r => exact ⟨.help, by simp [hs, hres acc hl, h]⟩
      · exact ⟨.help, by simp [hs, hres acc hl, h]⟩
  · intro acc hl hsrc
    unfold parse_args
    rw [hl]
    simp only
    by_cases hs : acc.srcdir_s = ""
    · cases release with
      | none => simp [hs] at hsrc
      | some r => simp [hs, hres acc hl, h]
    · simp [hs, hres acc hl, h]

/-! ## Instances of the claims on the link diagnostic and the depth guard -/

/-- Scenario 5 as an instance of C18: the first call writes the diagnostic, the second
does not, and both copy. -/
theorem hard_link_diag_once_witness :
    ((copy_run false true scenario5 false).flatten.filter is_link_diag).length ≤ 1 ∧
    (CopyEvent.cant_make_hard_link "/s/a.ko" ∈
        ((copy_run false true scenario5 false).get? 0).getD [] ↔
      "/s/a.ko" = "/s/a.ko" ∧ link_fails ("/s/a.ko", "/d/a.ko", ⟨.ok, .other, .ok⟩) = true ∧
        ∀ p ∈ ([] : List (String × String × FsOutcome)), link_fails p = false) ∧
    (CopyEvent.cant_make_hard_link "/s/b.ko" ∈
        ((copy_run false true scenario5 false).get? 1).getD [] ↔
      "/s/b.ko" = "/s/b.ko" ∧ link_fails ("/s/b.ko", "/d/b.ko", ⟨.ok, .other, .ok⟩) = true ∧
        ∀ p ∈ [(("/s/a.ko", "/d/a.ko", ⟨.ok, .other, .ok⟩) : String × String × FsOutcome)],
          link_fails p = false) ∧
    CopyEvent.copy_file "/s/b.ko" "/d/b.ko" ∈
      ((copy_run false true scenario5 false).get? 1).getD [] :=
  ⟨(hard_link_diag_once false scenario5).1,
    (hard_link_diag_once false scenario5).2.1 [] ("/s/a.ko", "/d/a.ko", ⟨.ok, .other, .ok⟩)
      [("/s/b.ko", "/d/b.ko", ⟨.ok, .other, .ok⟩)] "/s/a.ko" rfl,
    (hard_link_diag_once false scenario5).2.1 [("/s/a.ko", "/d/a.ko", ⟨.ok, .other, .ok⟩)]
      ("/s/b.ko", "/d/b.ko", ⟨.ok, .other, .ok⟩) [] "/s/b.ko" rfl,
    (hard_link_diag_once false scenario5).2.2 [("/s/a.ko", "/d/a.ko", ⟨.ok, .other, .ok⟩)]
      ("/s/b.ko", "/d/b.ko", ⟨.ok, .other, .ok⟩) [] rfl⟩

/-- A call at depth 1025 on the self-dependent module as an instance of C20. -/
theorem depth_guard_witness :
    mark_dep_req_fuel 7 "A" "A" 1025 self_loop = mark_dep_req "A" "A" 1025 self_loop ∧
    mark_dep_req "A" "A" 1025 self_loop =
      { self_loop with cerr := self_loop.cerr ++ [Diag.too_deep] } ∧
    "A" ∈ (map_index (mark_all ["A"] self_loop).ko_list "A").pulled_by :=
  ⟨(depth_guard "A" "A" 1025 self_loop ["A"]).1 7 (by decide),
    (depth_guard "A" "A" 1025 self_loop ["A"]).2.1 (by decide),
    (depth_guard "A" "A" 1025 self_loop ["A"]).2.2 "A" "A" 1 (by decide) (by decide) (by decide)
      (by decide)⟩

end Copyko
